import Mathlib

/-!
A shallow embedding of the cobaltspeech/log test-log verification engine
(src/pkg/testinglog/logger.go, src/pkg/testinglog/lastminutefilewriter.go,
src/internal/logmap/logmap.go, src/pkg/level/level.go) in Lean 4.

Modelling conventions:
- Go strings are Lean Strings; character-level operations work on the
  List Char representation (positions count characters, which agrees with
  Go byte positions on the ASCII text the engine produces and compares).
- Go interface{} values passed as keyvals, and values obtained from
  encoding/json unmarshalling, are modelled by the closed type GoValue.
  Custom json.Marshaler implementations are modelled as carrying the JSON
  value they marshal to (or an error message for failing marshalers);
  fmt printing of such a struct itself is abstracted.  JSON numbers are
  modelled as integers (the engine only ever produces integral numbers;
  fractional literals are outside the modelled fragment).
- Go panics and runtime errors (slice out of range, nil dereference,
  explicit panic calls) are modelled as Except.error; Except.ok is normal
  termination.
- Side effects on the test runner (runner.Log, runner.Fail) and on the
  deferred file writer are modelled as an explicit event list / explicit
  state.  The textual diffs produced by the go-cmp library are abstracted
  by a simple concrete diff rendering; the engine only ever passes them
  through to runner.Log.
-/

/-- A parsed JSON scalar value, as produced by encoding/json unmarshalling
into interface{} for the flat objects the engine emits. -/
inductive JValue where
  | jnull : JValue
  | jbool (b : Bool) : JValue
  | jnum (n : Int) : JValue
  | jstr (s : String) : JValue
deriving Repr, DecidableEq

/-- A Go interface{} value as it can appear in a MapSlice: a plain string
(the result of fmt.Sprint), a value implementing json.Marshaler (carrying
the JSON value its MarshalJSON produces, or an error), a value implementing
encoding.TextMarshaler (carrying its text), or a value obtained from JSON
unmarshalling (bool, number, null; strings unmarshal to the str case). -/
inductive GoValue where
  | str (s : String) : GoValue
  | jsonM (j : JValue) : GoValue
  | jsonMErr (msg : String) : GoValue
  | textM (s : String) : GoValue
  | pbool (b : Bool) : GoValue
  | pnum (n : Int) : GoValue
  | pnull : GoValue
deriving Repr, DecidableEq

/-- One entry of an ordered log map (logmap.MapItem). -/
structure MapItem where
  key : String
  value : GoValue
deriving Repr, DecidableEq

/-- logmap.MapSlice: an ordered list of key/value entries. -/
abbrev MapSlice := List MapItem

/-! ## Character helpers -/

/-- Decimal digit character for d < 10. -/
def digitChar (d : Nat) : Char :=
  match d with
  | 0 => '0' | 1 => '1' | 2 => '2' | 3 => '3' | 4 => '4'
  | 5 => '5' | 6 => '6' | 7 => '7' | 8 => '8' | 9 => '9'
  | _ => '0'

/-- Lowercase hexadecimal digit character for d < 16 (as Go emits in
\u00XX escapes). -/
def hexDigitChar (d : Nat) : Char :=
  match d with
  | 0 => '0' | 1 => '1' | 2 => '2' | 3 => '3' | 4 => '4'
  | 5 => '5' | 6 => '6' | 7 => '7' | 8 => '8' | 9 => '9'
  | 10 => 'a' | 11 => 'b' | 12 => 'c' | 13 => 'd' | 14 => 'e' | 15 => 'f'
  | _ => '0'

/-- Value of a hexadecimal digit character, if it is one. -/
def hexVal (c : Char) : Option Nat :=
  if 48 ≤ c.toNat ∧ c.toNat ≤ 57 then some (c.toNat - 48)
  else if 97 ≤ c.toNat ∧ c.toNat ≤ 102 then some (c.toNat - 87)
  else if 65 ≤ c.toNat ∧ c.toNat ≤ 70 then some (c.toNat - 55)
  else none

/-- Reversed decimal digits of a natural number (least significant first). -/
def natToRevDigits : Nat → List Char
  | 0 => []
  | n + 1 =>
    digitChar ((n + 1) % 10) :: natToRevDigits ((n + 1) / 10)
decreasing_by exact Nat.div_lt_self (Nat.succ_pos n) (by omega)

/-- Decimal representation of a natural number, as Go strconv renders it. -/
def natRepr (n : Nat) : List Char :=
  if n = 0 then ['0'] else (natToRevDigits n).reverse

/-- Decimal representation of an integer, as Go renders integral values
(fmt %v of an int, or of an integral float64, or the JSON encoding). -/
def intRepr (n : Int) : List Char :=
  match n with
  | Int.ofNat m => natRepr m
  | Int.negSucc m => '-' :: natRepr (m + 1)

/-! ## Go strconv.Quote (the %q verb used for map keys) -/

/-- Quoting of one character as performed by Go %q (strconv.Quote), for the
character classes the model distinguishes.  Characters at or above 0x20 other
than the quote and backslash are kept literal (Go escapes some rare
non-printable runes, which is abstracted away: either rendering is the same
JSON value).  Control characters use the Go escape table; note that the
escapes for 0x07, 0x0b and the \x hexadecimal form are NOT valid JSON
escapes, so a string containing them does not survive JSON validation. -/
def goQuoteChar (c : Char) : List Char :=
  if c = '"' then ['\\', '"']
  else if c = '\\' then ['\\', '\\']
  else if c = '\n' then ['\\', 'n']
  else if c = '\t' then ['\\', 't']
  else if c = '\r' then ['\\', 'r']
  else if c.toNat = 8 then ['\\', 'b']
  else if c.toNat = 12 then ['\\', 'f']
  else if c.toNat = 7 then ['\\', 'a']
  else if c.toNat = 11 then ['\\', 'v']
  else if c.toNat < 32 then ['\\', 'x', hexDigitChar (c.toNat / 16), hexDigitChar (c.toNat % 16)]
  else [c]

/-- Go %q of a string: quotes plus per-character escaping. -/
def goQuote (s : String) : List Char :=
  '"' :: (s.data.flatMap goQuoteChar) ++ ['"']

/-! ## encoding/json string escaping (used for values via json.Marshal) -/

/-- Escaping of one character inside a JSON string as performed by
encoding/json with HTML escaping on (json.Marshal default): the quote and
backslash are escaped, newline / carriage return / tab use short escapes,
all other control characters become \u00XX, and the HTML-sensitive
characters < > & become < > &. -/
def jsonEscapeChar (c : Char) : List Char :=
  if c = '"' then ['\\', '"']
  else if c = '\\' then ['\\', '\\']
  else if c = '\n' then ['\\', 'n']
  else if c = '\r' then ['\\', 'r']
  else if c = '\t' then ['\\', 't']
  else if c.toNat < 32 then
    ['\\', 'u', '0', '0', hexDigitChar (c.toNat / 16), hexDigitChar (c.toNat % 16)]
  else if c = '<' then ['\\', 'u', '0', '0', '3', 'c']
  else if c = '>' then ['\\', 'u', '0', '0', '3', 'e']
  else if c = '&' then ['\\', 'u', '0', '0', '2', '6']
  else [c]

/-- json.Marshal of a Go string: quotes plus escaping. -/
def jsonQuote (s : String) : List Char :=
  '"' :: (s.data.flatMap jsonEscapeChar) ++ ['"']

/-! ## A scanner for the flat JSON objects the engine emits.
This models the encoding/json scanner and the unmarshalling into
map[string]logmap.IndexedMapValue, restricted to one-level objects with
scalar values (the only shape the engine produces or compares). -/

/-- JSON whitespace as accepted by the encoding/json scanner. -/
def isJsonWs (c : Char) : Bool :=
  c = ' ' || c = '\t' || c = '\n' || c = '\r'

/-- Drop leading JSON whitespace. -/
def skipWs : List Char → List Char
  | [] => []
  | c :: rest => if isJsonWs c then skipWs rest else c :: rest

/-- Unescape table for single-character JSON escapes. -/
def unescapeChar (c : Char) : Option Char :=
  if c = '"' then some '"'
  else if c = '\\' then some '\\'
  else if c = '/' then some '/'
  else if c = 'n' then some '\n'
  else if c = 't' then some '\t'
  else if c = 'r' then some '\r'
  else if c = 'b' then some (Char.ofNat 8)
  else if c = 'f' then some (Char.ofNat 12)
  else none

/-- Combine four hexadecimal digit characters into a code point. -/
def hex4 (h1 h2 h3 h4 : Char) : Option Nat :=
  match hexVal h1, hexVal h2, hexVal h3, hexVal h4 with
  | some a, some b, some c, some d => some (((a * 16 + b) * 16 + c) * 16 + d)
  | _, _, _, _ => none

/-- Parse the body of a JSON string (after the opening quote), returning the
decoded characters and the remaining input after the closing quote.
Raw control characters and invalid escapes are rejected, as by the
encoding/json scanner. -/
def parseStrChars : List Char → Option (List Char × List Char)
  | [] => none
  | c :: rest =>
    if c = '"' then some ([], rest)
    else if c = '\\' then
      match rest with
      | [] => none
      | e :: r2 =>
        if e = 'u' then
          match r2 with
          | h1 :: h2 :: h3 :: h4 :: r3 =>
            match hex4 h1 h2 h3 h4 with
            | none => none
            | some n =>
              match parseStrChars r3 with
              | none => none
              | some (out, r) => some (Char.ofNat n :: out, r)
          | _ => none
        else
          match unescapeChar e with
          | none => none
          | some ec =>
            match parseStrChars r2 with
            | none => none
            | some (out, r) => some (ec :: out, r)
    else if c.toNat < 32 then none
    else
      match parseStrChars rest with
      | none => none
      | some (out, r) => some (c :: out, r)

/-- Parse a run of decimal digits, most significant first, extending acc. -/
def parseDigitsAux (acc : Nat) : List Char → Nat × List Char
  | [] => (acc, [])
  | c :: rest =>
    if c.isDigit then parseDigitsAux (acc * 10 + (c.toNat - 48)) rest
    else (acc, c :: rest)

/-- Parse a nonempty run of decimal digits. -/
def parseNat1 : List Char → Option (Nat × List Char)
  | [] => none
  | c :: rest =>
    if c.isDigit then some (parseDigitsAux (c.toNat - 48) rest) else none

/-- Parse one scalar JSON value. -/
def parseJValue (l : List Char) : Option (JValue × List Char) :=
  match l with
  | [] => none
  | c :: rest =>
    if c = '"' then
      (parseStrChars rest).map (fun p => (JValue.jstr (String.mk p.1), p.2))
    else if c = 't' then
      match rest with
      | 'r' :: 'u' :: 'e' :: r => some (JValue.jbool true, r)
      | _ => none
    else if c = 'f' then
      match rest with
      | 'a' :: 'l' :: 's' :: 'e' :: r => some (JValue.jbool false, r)
      | _ => none
    else if c = 'n' then
      match rest with
      | 'u' :: 'l' :: 'l' :: r => some (JValue.jnull, r)
      | _ => none
    else if c = '-' then
      (parseNat1 rest).map (fun p => (JValue.jnum (-(p.1 : Int)), p.2))
    else if c.isDigit then
      (parseNat1 (c :: rest)).map (fun p => (JValue.jnum (p.1 : Int), p.2))
    else none

/-- Parse the fields of a JSON object after the opening brace (at least one
field), fuelled by an upper bound on the number of fields. -/
def parseFieldsAux : Nat → List Char → Option (List (String × JValue) × List Char)
  | 0, _ => none
  | fuel + 1, l =>
    match skipWs l with
    | [] => none
    | c :: r1 =>
      if c = '"' then
        match parseStrChars r1 with
        | none => none
        | some (k, r2) =>
          match skipWs r2 with
          | [] => none
          | c2 :: r3 =>
            if c2 = ':' then
              match parseJValue (skipWs r3) with
              | none => none
              | some (v, r4) =>
                match skipWs r4 with
                | [] => none
                | c3 :: r5 =>
                  if c3 = ',' then
                    (parseFieldsAux fuel r5).map
                      (fun p => ((String.mk k, v) :: p.1, p.2))
                  else if c3 = '}' then some ([(String.mk k, v)], r5)
                  else none
            else none
      else none

/-- Parse a complete one-level JSON object (the whole input, modulo
surrounding whitespace), returning the field list in document order. -/
def parseTopObject (l : List Char) : Option (List (String × JValue)) :=
  match skipWs l with
  | [] => none
  | c :: r =>
    if c = '{' then
      match skipWs r with
      | c2 :: r2 =>
        if c2 = '}' then (if (skipWs r2).isEmpty then some [] else none)
        else
          match parseFieldsAux (r.length + 1) r with
          | some (fs, rest) => if (skipWs rest).isEmpty then some fs else none
          | none => none
      | [] =>
        match parseFieldsAux (r.length + 1) r with
        | some (fs, rest) => if (skipWs rest).isEmpty then some fs else none
        | none => none
    else none

/-! ## logmap.FromKeyvals and value stringification -/

/-- fmt.Sprint of a GoValue.  Plain strings print as themselves; bools,
integral numbers and nil print in the standard Go way.  The default fmt
rendering of a struct that happens to implement a marshaler interface is
abstracted by printing its carried payload (no claim exercises this). -/
def goSprint (v : GoValue) : String :=
  match v with
  | GoValue.str s => s
  | GoValue.pbool b => if b then "true" else "false"
  | GoValue.pnum n => String.mk (intRepr n)
  | GoValue.pnull => "<nil>"
  | GoValue.jsonM j =>
    match j with
    | JValue.jstr s => s
    | JValue.jbool b => if b then "true" else "false"
    | JValue.jnum n => String.mk (intRepr n)
    | JValue.jnull => "<nil>"
  | GoValue.jsonMErr m => m
  | GoValue.textM s => s

/-- The value a keyval takes inside the MapSlice: values implementing
json.Marshaler or encoding.TextMarshaler are kept as-is, everything else is
stringified with fmt.Sprint (logmap.FromKeyvals, type switch). -/
def normKeyvalValue (v : GoValue) : GoValue :=
  match v with
  | GoValue.jsonM j => GoValue.jsonM j
  | GoValue.jsonMErr m => GoValue.jsonMErr m
  | GoValue.textM s => GoValue.textM s
  | v => GoValue.str (goSprint v)

/-- logmap.FromKeyvals: consume the keyvals two at a time; a missing final
value becomes the literal string "missing"; keys are stringified with
fmt.Sprint. -/
def FromKeyvals : List GoValue → MapSlice
  | [] => []
  | [k] => [{ key := goSprint k, value := GoValue.str "missing" }]
  | k :: v :: rest =>
    { key := goSprint k, value := normKeyvalValue v } :: FromKeyvals rest

/-- Serialization of a scalar JSON value, as emitted by encoding/json. -/
def serializeJ (j : JValue) : List Char :=
  match j with
  | JValue.jnull => ['n', 'u', 'l', 'l']
  | JValue.jbool b => if b then ['t', 'r', 'u', 'e'] else ['f', 'a', 'l', 's', 'e']
  | JValue.jnum n => intRepr n
  | JValue.jstr s => jsonQuote s

/-- json.Marshal of a MapSlice value (logmap.MarshalJSON applies this to
each entry value): custom marshalers are honoured (and can fail), text
marshalers become JSON strings of their text, plain strings become JSON
strings, and parsed scalars re-encode canonically. -/
def marshalValue (v : GoValue) : Except String (List Char) :=
  match v with
  | GoValue.str s => Except.ok (jsonQuote s)
  | GoValue.jsonM j => Except.ok (serializeJ j)
  | GoValue.jsonMErr m => Except.error m
  | GoValue.textM s => Except.ok (jsonQuote s)
  | GoValue.pbool b => Except.ok (serializeJ (JValue.jbool b))
  | GoValue.pnum n => Except.ok (serializeJ (JValue.jnum n))
  | GoValue.pnull => Except.ok (serializeJ JValue.jnull)

/-- logmap.StringFromValue: marshal custom marshalers to their JSON text
(panicking on a marshal error, modelled as Except.error), stringify
everything else with fmt.Sprint. -/
def StringFromValue (v : GoValue) : Except String String :=
  match v with
  | GoValue.jsonM j => Except.ok (String.mk (serializeJ j))
  | GoValue.jsonMErr m => Except.error m
  | GoValue.textM s => Except.ok (String.mk (jsonQuote s))
  | v => Except.ok (goSprint v)

/-- The body of logmap.MarshalJSON: each entry rendered as %q-quoted key,
colon, marshalled value, comma-separated. -/
def serItems : MapSlice → Except String (List Char)
  | [] => Except.ok []
  | [it] =>
    (match marshalValue it.value with
     | Except.error e => Except.error e
     | Except.ok vb => Except.ok (goQuote it.key ++ ':' :: vb))
  | it :: rest =>
    (match marshalValue it.value with
     | Except.error e => Except.error e
     | Except.ok vb =>
       match serItems rest with
       | Except.error e => Except.error e
       | Except.ok tail => Except.ok (goQuote it.key ++ ':' :: vb ++ ',' :: tail))

/-- logmap.MarshalJSON: braces around the comma-separated entries. -/
def MarshalJSON (ms : MapSlice) : Except String (List Char) :=
  match serItems ms with
  | Except.error e => Except.error e
  | Except.ok body => Except.ok ('{' :: body ++ ['}'])

/-- logmap.JSONString: encode through a json.Encoder, which calls
MarshalJSON, validates the produced bytes with the JSON scanner (rejecting,
for example, the non-JSON escapes Go %q can produce for exotic control
characters in keys), and appends a newline.  An invalid result surfaces as
an error, never as partial output. -/
def JSONString (ms : MapSlice) : Except String String :=
  match MarshalJSON ms with
  | Except.error e => Except.error e
  | Except.ok body =>
    match parseTopObject body with
    | some _ => Except.ok (String.mk (body ++ ['\n']))
    | none => Except.error "json: error calling MarshalJSON"

/-! ## logmap.MapSlice.UnmarshalJSON

Unmarshalling goes through an unordered Go map from keys to
IndexedMapValue; each value records the order it was decoded in via a
monotonically increasing per-process counter, and the map entries are then
sorted by that index to restore document order.  The unordered map is
modelled as an association list updated in place (position is irrelevant:
the entries are sorted by index afterwards); extraction order from the Go
map is arbitrary, which the round-trip theorem accounts for by quantifying
over permutations of the entries. -/

/-- One entry of the intermediate map: key, value and decode index. -/
structure IdxEntry where
  key : String
  value : JValue
  idx : Nat
deriving Repr, DecidableEq

/-- Insert into the modelled Go map: replacing an existing key overwrites
its value and index. -/
def goMapInsert (m : List IdxEntry) (k : String) (v : JValue) (i : Nat) : List IdxEntry :=
  match m with
  | [] => [{ key := k, value := v, idx := i }]
  | e :: rest =>
    if e.key = k then { key := k, value := v, idx := i } :: rest
    else e :: goMapInsert rest k v i

/-- Decode the parsed fields in document order into the intermediate map,
drawing indices c0+1, c0+2, ... from the per-process counter. -/
def buildGoMap (fields : List (String × JValue)) (c0 : Nat) : List IdxEntry :=
  match fields with
  | [] => []
  | (k, v) :: rest => goMapInsert (buildGoMap rest (c0 + 1)) k v (c0 + 1)

/-- Sort the intermediate entries by decode index (sort.Slice on the index;
the indices are pairwise distinct, so any correct sort gives this result). -/
def sortByIdx (l : List IdxEntry) : List IdxEntry :=
  List.insertionSort (fun a b => a.idx ≤ b.idx) l

/-- A parsed JSON scalar as the Go interface{} value it unmarshals to. -/
def jToGo (j : JValue) : GoValue :=
  match j with
  | JValue.jstr s => GoValue.str s
  | JValue.jbool b => GoValue.pbool b
  | JValue.jnum n => GoValue.pnum n
  | JValue.jnull => GoValue.pnull

/-- logmap.MapSlice.UnmarshalJSON with an explicit counter start: parse the
object, build the intermediate indexed map, sort by index, and return the
entries (appended to an initially empty MapSlice). -/
def unmarshalMapSliceFrom (l : List Char) (c0 : Nat) : Option MapSlice :=
  (parseTopObject l).map fun fields =>
    (sortByIdx (buildGoMap fields c0)).map fun e =>
      { key := e.key, value := jToGo e.value }

/-- logmap.MapSlice.UnmarshalJSON as used by the comparison paths.  The
counter start only shifts all indices by a constant, so the resulting order
is independent of it; the definition uses zero. -/
def unmarshalMapSlice (l : List Char) : Option MapSlice :=
  unmarshalMapSliceFrom l 0

/-- Update of the modelled Go map[string]string: replacing an existing key
overwrites its value in place. -/
def stringMapInsert (m : List (String × String)) (k v : String) : List (String × String) :=
  match m with
  | [] => [(k, v)]
  | p :: rest => if p.1 = k then (k, v) :: rest else p :: stringMapInsert rest k v

/-- The fold underlying ToStringMap. -/
def toStringMapAux (acc : List (String × String)) : MapSlice → Except String (List (String × String))
  | [] => Except.ok acc
  | it :: rest =>
    match StringFromValue it.value with
    | Except.error e => Except.error e
    | Except.ok v => toStringMapAux (stringMapInsert acc it.key v) rest

/-- logmap.ToStringMap: the fields as a Go map[string]string (modelled as
an association list in first-insertion order, later values for a repeated
key overwriting earlier ones).  Panics of StringFromValue propagate. -/
def ToStringMap (ms : MapSlice) : Except String (List (String × String)) :=
  toStringMapAux [] ms

/-! ## pkg/level -/

/-- level.Level is a byte bitmask. -/
abbrev Level := Nat

/-- The four base levels and the named combinations. -/
def Level.trace : Level := 1

def Level.debug : Level := 2

def Level.info : Level := 4

def Level.error : Level := 8

def Level.none : Level := 0

def Level.default : Level := 12

def Level.all : Level := 15

/-- The levelCodes table. -/
def levelCodes : List (Level × String) :=
  [(Level.trace, "trace"), (Level.debug, "debug"), (Level.info, "info"),
   (Level.error, "error"), (Level.all, "all"), (Level.default, "default"),
   (Level.none, "none")]

/-- Level.String: table lookup, empty string for unknown masks (the Go zero
value of a missing map entry). -/
def levelString (l : Level) : String :=
  match levelCodes.lookup l with
  | some s => s
  | none => ""

/-- ASCII lowercasing (strings.ToLower restricted to the ASCII text that
level labels consist of). -/
def asciiLower (c : Char) : Char :=
  if 65 ≤ c.toNat ∧ c.toNat ≤ 90 then Char.ofNat (c.toNat + 32) else c

/-- Go unicode.IsSpace for the ASCII whitespace that can surround a level
label in a log line prefix. -/
def isGoSpace (c : Char) : Bool :=
  c = ' ' || c = '\t' || c = '\n' || c = Char.ofNat 11 || c = Char.ofNat 12 || c = '\r'

/-- strings.TrimSpace on the character list. -/
def trimSpace (l : List Char) : List Char :=
  ((l.dropWhile isGoSpace).reverse.dropWhile isGoSpace).reverse

/-- level.FromString: trim and lowercase, then reverse-lookup in the
levelCodes table; unknown labels map to None.  (Go iterates the map; the
label strings are pairwise distinct, so iteration order is irrelevant.) -/
def levelFromString (s : String) : Level :=
  let t := String.mk ((trimSpace s.data).map asciiLower)
  match levelCodes.find? (fun p => p.2 = t) with
  | some p => p.1
  | none => Level.none

/-- fmt %-5s: left-justify in a field of width five. -/
def pad5 (s : String) : String :=
  if s.length < 5 then s ++ String.mk (List.replicate (5 - s.length) ' ') else s

/-! ## testinglog.lastMinuteFileWriter -/

/-- lastMinuteFileWriter state: the in-memory buffer (nil once the file has
been created) and the backing file contents (present once actuallyWrite has
run).  File system errors are not modelled: directory and file creation
always succeed. -/
structure LMFW where
  path : String
  buf : Option String
  file : Option String
deriving Repr, DecidableEq

/-- newLastMinuteFileWriter: empty buffer, no file. -/
def newLMFW (p : String) : LMFW :=
  { path := p, buf := some "", file := none }

/-- Write: append to the file if it has been created, else to the buffer. -/
def lmfwWrite (fw : LMFW) (p : String) : LMFW :=
  match fw.file with
  | some c => { fw with file := some (c ++ p) }
  | none => { fw with buf := some ((fw.buf.getD "") ++ p) }

/-- actuallyWrite: idempotent promotion; on first call create the file with
the buffered contents and drop the buffer (fw.b = nil in the source). -/
def actuallyWrite (fw : LMFW) : LMFW :=
  if fw.file.isSome then fw
  else { fw with file := some (fw.buf.getD ""), buf := none }

/-! ## The verification engine state and observable events -/

/-- The field-ignore callback: given the expected-line fields as a string
map, return the field names whose values are exempt from comparison. -/
abbrev FieldIgnoreFunc := List (String × String) → List String

/-- testinglog.Logger state (the TestRunner itself is represented by the
event trace, not stored). -/
structure LoggerState where
  truth : List String
  cur : Nat
  truthProvided : Bool
  ignoreOrder : Bool
  doFail : Bool
  failed : Bool
  actualFile : Option LMFW
  actualFileOverride : Bool
  ignorer : Option FieldIgnoreFunc

/-- Observable actions on the collaborators: a runner.Log call with its
arguments, a runner.Fail call, and a Close call on the actual-output
writer. -/
inductive Event where
  | runnerLog (args : List String) : Event
  | runnerFail : Event
  | fileClose : Event
deriving Repr, DecidableEq

/-- Concatenation with a separator (used only by the abstracted diff
rendering below). -/
def joinSep (sep : String) : List String → String
  | [] => ""
  | [s] => s
  | s :: rest => s ++ sep ++ joinSep sep rest

/-- Abstraction of the go-cmp textual diff of two strings; the engine only
passes this text to runner.Log.  Both inputs appear in full. -/
def cmpDiff (want got : String) : String :=
  "- " ++ want ++ "\n+ " ++ got ++ "\n"

/-- Abstraction of the go-cmp textual diff of two string lists; both lists
appear in full. -/
def cmpDiffList (want got : List String) : String :=
  "- [" ++ joinSep ", " want ++ "]\n+ [" ++ joinSep ", " got ++ "]\n"

/-- replaceNbsp rewrites non-breaking spaces that go-cmp inserts into its
diff text; on the abstracted diff rendering (which contains none) it is the
identity. -/
def replaceNbsp (s : String) : String := s

/-- The first runner.Log argument of a per-line mismatch report. -/
def unexpectedMsgTag : String := "unexpected log message (-want +got):\n"

/-- The first runner.Log argument of a missing-line report. -/
def missingMsgTag : String := "missing log message (-want +got):\n"

/-- The first runner.Log argument of the order-insensitive count-mismatch
report. -/
def countMsgTag : String := "unexpected number of log messages (-want +got):\n"

/-- The synthetic error-level line reported by Logger.error. -/
def loggingFailureLine (errmsg : String) : String :=
  pad5 (levelString Level.error) ++
    " \x7b\"msg\":\"logging failure\",\"error\":" ++
    String.mk (goQuote errmsg) ++ "\x7d\n"

/-- Logger.error: report the synthetic line to the runner and call
runner.Fail immediately. -/
def errorEvents (errmsg : String) : List Event :=
  [Event.runnerLog [loggingFailureLine errmsg], Event.runnerFail]

/-- Logger.log: forward to the actual-output writer when configured,
otherwise to the runner. -/
def loggerLog (l : LoggerState) (line : String) : LoggerState × List Event :=
  match l.actualFile with
  | none => (l, [Event.runnerLog [line]])
  | some fw => ({ l with actualFile := some (lmfwWrite fw line) }, [])

/-- Logger.getCurrent: the expected line at the cursor, or the empty string
past the end. -/
def getCurrent (l : LoggerState) : String :=
  l.truth.getD l.cur ""

/-- sliceContains from the source. -/
def sliceContains (slice : List String) (item : String) : Bool :=
  match slice with
  | [] => false
  | s :: rest => if s = item then true else sliceContains rest item

/-- Go interface equality between an unmarshalled value and a string: only
a string-typed value can be equal to a string. -/
def goValEqString (v : GoValue) (s : String) : Bool :=
  match v with
  | GoValue.str t => t = s
  | _ => false

/-- The pairwise field walk at the end of Logger.cmp.  The two lists have
equal length when called; key names must match at every position, values
are skipped for exempted keys and otherwise the (unmarshalled) expected
value is compared with the string form of the actual value.
StringFromValue panics (on a failing marshaler) propagate. -/
def cmpLoop (keysToIgnore : List String) : MapSlice → MapSlice → Except String Bool
  | [], _ => Except.ok true
  | _ :: _, [] => Except.ok true
  | h :: hs, e :: es =>
    if h.key ≠ e.key then Except.ok false
    else if sliceContains keysToIgnore h.key then cmpLoop keysToIgnore hs es
    else
      match StringFromValue e.value with
      | Except.error er => Except.error er
      | Except.ok s =>
        if goValEqString h.value s then cmpLoop keysToIgnore hs es
        else Except.ok false

/-- Logger.cmp.  hyp is the expected (truth-file) line, exp is the line for
the log call under comparison, expLvl and expMap its level and map.  With
no ignorer configured this is string equality; otherwise the truth line is
sliced past its 6-character level prefix (a Go slice panic if shorter) and
unmarshalled (a Go panic on error), field counts and the level prefix are
checked, and the fields are walked pairwise with the keys returned by the
ignorer (applied to the truth-line fields) exempt from value comparison. -/
def cmpL (ignorer : Option FieldIgnoreFunc) (hyp exp : String) (expLvl : Level)
    (expMap : MapSlice) : Except String Bool :=
  match ignorer with
  | none => Except.ok (hyp = exp)
  | some ig =>
    if hyp = "" then Except.ok false
    else if hyp.data.length < 6 then
      Except.error "runtime error: slice bounds out of range"
    else
      match unmarshalMapSlice (hyp.data.drop 6) with
      | none => Except.error "panic: json unmarshal error"
      | some hypMap =>
        if hypMap.length ≠ expMap.length then Except.ok false
        else if ¬ (levelString expLvl).data.isPrefixOf hyp.data then Except.ok false
        else
          match ToStringMap hypMap with
          | Except.error e => Except.error e
          | Except.ok fieldsMap => cmpLoop (ig fieldsMap) hypMap expMap

/-- The rendering step of Logger.compare: the formatted line (with its
trailing newline when rendering succeeds; with an empty JSON part when it
fails) together with the events of the error report (Logger.error fails
the runner immediately and compare continues). -/
def renderLine (lvl : Level) (keyvals : List GoValue) : String × List Event :=
  match JSONString (FromKeyvals keyvals) with
  | Except.ok s => (pad5 (levelString lvl) ++ " " ++ s, [])
  | Except.error e =>
    (pad5 (levelString lvl) ++ " " ++ "",
     errorEvents ("error creating log string: " ++ e))

/-- The mismatch report of Logger.compare. -/
def mismatchEvents (hyp exp2 : String) : List Event :=
  [Event.runnerLog [unexpectedMsgTag, replaceNbsp (cmpDiff hyp exp2)]]

/-- The ordered-mode comparison tail of Logger.compare: compare the line at
the cursor with the rendered line (trailing newline removed), report a diff
and set failed on mismatch (promoting the actual-output file), and advance
the cursor unconditionally. -/
def compareTail (l1 : LoggerState) (lvl : Level) (ms : MapSlice) (exp1 : String) :
    Except String (LoggerState × List Event) :=
  let hyp := getCurrent l1
  let exp2 := String.mk (exp1.data.dropLast)
  match cmpL l1.ignorer hyp exp2 lvl ms with
  | Except.error e => Except.error e
  | Except.ok true => Except.ok ({ l1 with cur := l1.cur + 1 }, [])
  | Except.ok false =>
    let l2 :=
      { l1 with
        failed := true
        actualFile := l1.actualFile.map actuallyWrite }
    Except.ok ({ l2 with cur := l2.cur + 1 }, mismatchEvents hyp exp2)

/-- Logger.compare: render the keyvals (a render error is reported through
Logger.error, which fails the runner immediately, and rendering continues
with an empty JSON string), emit the line, and in ordered mode with a
transcript run the comparison tail. -/
def Logger.compare (l : LoggerState) (lvl : Level) (keyvals : List GoValue) :
    Except String (LoggerState × List Event) :=
  let ms := FromKeyvals keyvals
  let (exp1, evs0) := renderLine lvl keyvals
  let (l1, evs1) := loggerLog l exp1
  if ¬ l1.truthProvided ∨ l1.ignoreOrder then Except.ok (l1, evs0 ++ evs1)
  else
    (compareTail l1 lvl ms exp1).map (fun r => (r.1, evs0 ++ evs1 ++ r.2))

/-- strings.Split on a newline separator. -/
def splitNl : List Char → List (List Char)
  | [] => [[]]
  | c :: rest =>
    match splitNl rest with
    | [] => [[]]
    | h :: t => if c = '\n' then [] :: h :: t else (c :: h) :: t

/-- Drop a trailing empty element (the idiom used for both the truth-file
contents and the accumulated actual lines). -/
def stripTrailingEmpty (l : List String) : List String :=
  match l.getLast? with
  | some "" => l.dropLast
  | _ => l

/-- Lexicographic comparison of character lists (the Go string ordering;
on valid UTF-8, code-point order coincides with Go byte order). -/
def charsLe : List Char → List Char → Bool
  | [], _ => true
  | _ :: _, [] => false
  | c :: cs, d :: ds =>
    if c.toNat < d.toNat then true
    else if d.toNat < c.toNat then false
    else charsLe cs ds

/-- The ordering sort.Strings sorts by. -/
def strLeProp (a b : String) : Prop := charsLe a.data b.data = true

instance : DecidableRel strLeProp := fun a b =>
  inferInstanceAs (Decidable (charsLe a.data b.data = true))

/-- sort.Strings: lexicographic sort. -/
def sortStrings (l : List String) : List String :=
  List.insertionSort strLeProp l

/-- The element-wise walk of compareFinalSortedLogs over the sorted pairs:
each actual line is sliced for its level (a Go slice panic when shorter
than 6 characters) and unmarshalled (a Go panic on error), then compared
with Logger.cmp; every mismatching pair is reported and marks failure, with
no short-circuit. -/
def finalLoop (ig : Option FieldIgnoreFunc) :
    List (String × String) → Except String (List Event × Bool)
  | [] => Except.ok ([], false)
  | (want, got) :: rest =>
    if got.data.length < 6 then
      Except.error "runtime error: slice bounds out of range"
    else
      let gotLvl := levelFromString (String.mk (got.data.take 6))
      match unmarshalMapSlice (got.data.drop 6) with
      | none => Except.error "panic: json unmarshal error"
      | some gotMap =>
        match cmpL ig want got gotLvl gotMap with
        | Except.error e => Except.error e
        | Except.ok true => finalLoop ig rest
        | Except.ok false =>
          match finalLoop ig rest with
          | Except.error e => Except.error e
          | Except.ok (evs, _) =>
            Except.ok
              (Event.runnerLog [unexpectedMsgTag, replaceNbsp (cmpDiff want got)] :: evs,
               true)

/-- Logger.compareFinalSortedLogs: nothing to do without a transcript;
otherwise read the buffered actual lines (dereferencing the buffer of the
actual-output writer: a nil dereference if it was already promoted or
absent), strip a trailing empty line, sort both lists, report a single
aggregate diff when the lengths differ, and otherwise walk the sorted
pairs. -/
def compareFinalSortedLogs (l : LoggerState) : Except String (LoggerState × List Event) :=
  if ¬ l.truthProvided then Except.ok (l, [])
  else
    match l.actualFile with
    | none => Except.error "runtime error: nil pointer dereference"
    | some fw =>
      match fw.buf with
      | none => Except.error "runtime error: nil pointer dereference"
      | some bs =>
        let truthLogs := sortStrings l.truth
        let actualLogs := sortStrings (stripTrailingEmpty ((splitNl bs.data).map String.mk))
        if truthLogs.length ≠ actualLogs.length then
          Except.ok ({ l with failed := true },
            [Event.runnerLog [countMsgTag, replaceNbsp (cmpDiffList truthLogs actualLogs)]])
        else
          match finalLoop l.ignorer (truthLogs.zip actualLogs) with
          | Except.error e => Except.error e
          | Except.ok (evs, bad) =>
            Except.ok ({ l with failed := l.failed || bad }, evs)

/-- The missing-line walk of Logger.Done in ordered mode: every unconsumed
expected line is reported as missing, failed is set, and the cursor is
advanced to the end. -/
def doneMissing (l : LoggerState) : LoggerState × List Event :=
  if l.cur < l.truth.length then
    ({ l with failed := true, cur := l.truth.length },
     (l.truth.drop l.cur).map
       (fun t => Event.runnerLog [missingMsgTag, replaceNbsp (cmpDiff t "")]))
  else (l, [])

/-- The failure-signalling and close steps at the end of Logger.Done. -/
def doneFinish (l1 : LoggerState) (evs1 : List Event) : LoggerState × List Event :=
  let (l2, evs2) :=
    if l1.failed then
      ({ l1 with actualFile := l1.actualFile.map actuallyWrite }, [Event.runnerFail])
    else (l1, [])
  let evs3 := if l2.actualFile.isSome then [Event.fileClose] else []
  (l2, evs1 ++ evs2 ++ evs3)

/-- Logger.Done: an immediate no-op when doFail is disabled; otherwise run
the deferred sorted comparison (order-insensitive mode) or report missing
expected lines, then on failure promote the actual-output file and call
runner.Fail, and finally call Close on the actual-output writer when one is
configured. -/
def Done (l : LoggerState) : Except String (LoggerState × List Event) :=
  if ¬ l.doFail then Except.ok (l, [])
  else
    match (if l.ignoreOrder then compareFinalSortedLogs l else Except.ok (doneMissing l)) with
    | Except.error e => Except.error e
    | Except.ok (l1, evs1) => Except.ok (doneFinish l1 evs1)

/-! ## Construction -/

/-- The outcome of reading the truth file at WithTruthFile option-creation
time. -/
inductive TruthRead where
  | notExist : TruthRead
  | content (s : String) : TruthRead
  | readErr (msg : String) : TruthRead

/-- The expected lines derived from a truth-file read: a missing file gives
no lines; contents are split on newlines with a trailing empty element
stripped; any other read error leaves the nil contents (split of the empty
string, stripped to nothing) and is returned as an error. -/
def truthLinesOf (r : TruthRead) : List String :=
  match r with
  | TruthRead.notExist => []
  | TruthRead.content s => stripTrailingEmpty ((splitNl s.data).map String.mk)
  | TruthRead.readErr _ => stripTrailingEmpty ((splitNl ([] : List Char)).map String.mk)

/-- The constructor options. -/
inductive LoggerOption where
  | withTruthFile (r : TruthRead) : LoggerOption
  | withActualOutputFile (path : String) : LoggerOption
  | withoutFailure : LoggerOption
  | withIgnoreOrder : LoggerOption
  | withFieldIgnoreFunc (f : Option FieldIgnoreFunc) : LoggerOption

/-- Application of one option to the logger under construction.
Registering a second truth source is a Go panic; a truth-file read error is
returned (after the option has recorded the empty line list). -/
def applyOption (l : LoggerState) (o : LoggerOption) : Except String LoggerState :=
  match o with
  | LoggerOption.withTruthFile r =>
    if l.truthProvided then Except.error "panic: multiple truth sources provided"
    else
      let l1 :=
        { l with
          truth := truthLinesOf r
          truthProvided := true
          actualFileOverride :=
            (match r with | TruthRead.notExist => true | _ => false) }
      match r with
      | TruthRead.readErr m => Except.error m
      | _ => Except.ok l1
  | LoggerOption.withActualOutputFile p => Except.ok { l with actualFile := some (newLMFW p) }
  | LoggerOption.withoutFailure => Except.ok { l with doFail := false }
  | LoggerOption.withIgnoreOrder => Except.ok { l with ignoreOrder := true }
  | LoggerOption.withFieldIgnoreFunc f => Except.ok { l with ignorer := f }

/-- The zero Logger NewLogger starts from (doFail defaults to true). -/
def initLogger : LoggerState :=
  { truth := [], cur := 0, truthProvided := false, ignoreOrder := false,
    doFail := true, failed := false, actualFile := none,
    actualFileOverride := false, ignorer := none }

/-- testinglog.NewLogger: fold the options (stopping at the first error),
promote the actual-output file immediately when no truth transcript was
provided or the truth file did not exist, and create an in-memory
actual-output writer when order-insensitive mode needs one. -/
def applyOptions : LoggerState → List LoggerOption → Except String LoggerState
  | l, [] => Except.ok l
  | l, o :: rest =>
    match applyOption l o with
    | Except.error e => Except.error e
    | Except.ok l2 => applyOptions l2 rest

/-- The post-option fixups of NewLogger: immediate promotion when no truth
transcript was provided or the truth file did not exist, and the in-memory
actual-output writer that order-insensitive mode needs. -/
def newLoggerFixups (l : LoggerState) : LoggerState :=
  let l1 :=
    if l.actualFile.isSome && (!l.truthProvided || l.actualFileOverride) then
      { l with actualFile := l.actualFile.map actuallyWrite }
    else l
  if l1.actualFile.isNone && l1.ignoreOrder then
    { l1 with actualFile := some (newLMFW "") }
  else l1

def NewLogger (opts : List LoggerOption) : Except String LoggerState :=
  match applyOptions initLogger opts with
  | Except.error e => Except.error e
  | Except.ok l => Except.ok (newLoggerFixups l)

/-! ## Derived notions used by the verification statements -/

/-- Whether an event is a per-line mismatch report (the diff reports carry
the tag as first argument and the diff text as second). -/
def isDiffEvent (e : Event) : Bool :=
  match e with
  | Event.runnerLog [tag, _] => tag = unexpectedMsgTag
  | _ => false

/-- The number of per-line mismatch reports in an event list. -/
def diffCount (evs : List Event) : Nat :=
  (evs.filter isDiffEvent).length

/-- The comparison-ready form of a log call (the line Logger.compare
renders, without its trailing newline), defined when rendering succeeds. -/
def renderedLine (lvl : Level) (keyvals : List GoValue) : Option String :=
  (JSONString (FromKeyvals keyvals)).toOption.map
    (fun s => String.mk ((pad5 (levelString lvl) ++ " " ++ s).data.dropLast))

/-- An ordered-mode engine with the given expected transcript (the state
WithTruthFile produces from an existing file, before any log call). -/
def orderedLogger (ts : List String) : LoggerState :=
  { initLogger with truth := ts, truthProvided := true }

/-- The actual-output writer holds no materialized file. -/
def NotMaterialized (l : LoggerState) : Prop :=
  ∀ fw, l.actualFile = some fw → fw.file = none

/-- The per-pair comparison step of the order-insensitive finalization:
level and map are re-derived from the actual line, then Logger.cmp runs. -/
def pairCmp (ig : Option FieldIgnoreFunc) (want got : String) : Except String Bool :=
  if got.data.length < 6 then
    Except.error "runtime error: slice bounds out of range"
  else
    match unmarshalMapSlice (got.data.drop 6) with
    | none => Except.error "panic: json unmarshal error"
    | some gotMap =>
      cmpL ig want got (levelFromString (String.mk (got.data.take 6))) gotMap

/-- The pairwise-field condition of the comparison rule with a field-ignore
function: keys agree at every position and non-exempt values agree, where
the truth-line value (as unmarshalled) is compared with the string form of
the actual value. -/
def CmpFieldsOk (ig : List String) (hypMap expMap : MapSlice) : Prop :=
  ∀ p ∈ hypMap.zip expMap,
    p.1.key = p.2.key ∧
    (sliceContains ig p.1.key = false →
      ∃ s, StringFromValue p.2.value = Except.ok s ∧ goValEqString p.1.value s = true)

/-- The field walk as described by the claim under examination for the
comparison rule: the roles in the value comparison are swapped — the
expected (truth-line) value is canonicalized to its string form and
compared against the raw actual value.  This definition follows the words
of the claim, to be contrasted with cmpLoop, which follows the source. -/
def cmpClaimedLoop (keysToIgnore : List String) : MapSlice → MapSlice → Except String Bool
  | [], _ => Except.ok true
  | _ :: _, [] => Except.ok true
  | h :: hs, e :: es =>
    if h.key ≠ e.key then Except.ok false
    else if sliceContains keysToIgnore h.key then cmpClaimedLoop keysToIgnore hs es
    else
      match StringFromValue h.value with
      | Except.error er => Except.error er
      | Except.ok s =>
        if goValEqString e.value s then cmpClaimedLoop keysToIgnore hs es
        else Except.ok false

/-- The comparison rule as worded by the claim under examination: identical
to cmpL except for the value-comparison direction in the field walk. -/
def cmpClaimed (ignorer : Option FieldIgnoreFunc) (hyp exp : String) (expLvl : Level)
    (expMap : MapSlice) : Except String Bool :=
  match ignorer with
  | none => Except.ok (hyp = exp)
  | some ig =>
    if hyp = "" then Except.ok false
    else if hyp.data.length < 6 then
      Except.error "runtime error: slice bounds out of range"
    else
      match unmarshalMapSlice (hyp.data.drop 6) with
      | none => Except.error "panic: json unmarshal error"
      | some hypMap =>
        if hypMap.length ≠ expMap.length then Except.ok false
        else if ¬ (levelString expLvl).data.isPrefixOf hyp.data then Except.ok false
        else
          match ToStringMap hypMap with
          | Except.error e => Except.error e
          | Except.ok fieldsMap => cmpClaimedLoop (ig fieldsMap) hypMap expMap

/-- The JSON value a successfully marshalled MapSlice value denotes (the
jsonMErr case never marshals successfully; its image here is arbitrary). -/
def toJ (v : GoValue) : JValue :=
  match v with
  | GoValue.str s => JValue.jstr s
  | GoValue.jsonM j => j
  | GoValue.jsonMErr _ => JValue.jnull
  | GoValue.textM s => JValue.jstr s
  | GoValue.pbool b => JValue.jbool b
  | GoValue.pnum n => JValue.jnum n
  | GoValue.pnull => JValue.jnull

/-- The field list a MapSlice serializes to. -/
def itemsToFields (ms : MapSlice) : List (String × JValue) :=
  ms.map (fun it => (it.key, toJ it.value))

/-- The intermediate indexed entries in document order (the multiset
buildGoMap produces when the keys are unique). -/
def indexedOf : List (String × JValue) → Nat → List IdxEntry
  | [], _ => []
  | (k, v) :: rest, c0 => { key := k, value := v, idx := c0 + 1 } :: indexedOf rest (c0 + 1)

/-- Characters whose Go %q escape is also a valid JSON escape (all
characters except the control characters that Go renders with \a, \v or
\xHH, which the JSON scanner rejects). -/
def goodQuoteChar (c : Char) : Bool :=
  32 ≤ c.toNat || c.toNat = 8 || c = '\t' || c = '\n' || c.toNat = 12 || c = '\r'

/-- All keys of a MapSlice survive %q quoting followed by JSON scanning. -/
def AllKeysGood (ms : MapSlice) : Prop :=
  ∀ it ∈ ms, ∀ c ∈ it.key.data, goodQuoteChar c = true

/-- The accumulated decimal value of a digit-character list. -/
def digitsVal (acc : Nat) (cs : List Char) : Nat :=
  cs.foldl (fun a c => a * 10 + (c.toNat - 48)) acc

/-! ## Structural lemmas -/

theorem loggerLog_failed (l : LoggerState) (line : String) :
    (loggerLog l line).1.failed = l.failed := by
  unfold loggerLog; split <;> rfl

theorem loggerLog_cur (l : LoggerState) (line : String) :
    (loggerLog l line).1.cur = l.cur := by
  unfold loggerLog; split <;> rfl

theorem loggerLog_truth (l : LoggerState) (line : String) :
    (loggerLog l line).1.truth = l.truth := by
  unfold loggerLog; split <;> rfl

theorem loggerLog_truthProvided (l : LoggerState) (line : String) :
    (loggerLog l line).1.truthProvided = l.truthProvided := by
  unfold loggerLog; split <;> rfl

theorem loggerLog_ignoreOrder (l : LoggerState) (line : String) :
    (loggerLog l line).1.ignoreOrder = l.ignoreOrder := by
  unfold loggerLog; split <;> rfl

theorem loggerLog_ignorer (l : LoggerState) (line : String) :
    (loggerLog l line).1.ignorer = l.ignorer := by
  unfold loggerLog; split <;> rfl

theorem splitNl_ne_nil (l : List Char) : splitNl l ≠ [] := by
  cases l with
  | nil => simp [splitNl]
  | cons c rest =>
    simp only [splitNl]
    cases h : splitNl rest with
    | nil => simp [h]
    | cons a t => simp only [h]; split <;> simp

theorem splitNl_append_newline (l : List Char) :
    splitNl (l ++ ['\n']) = splitNl l ++ [[]] := by
  induction l with
  | nil => rfl
  | cons c rest ih =>
    rw [List.cons_append]
    simp only [splitNl]
    cases h : splitNl rest with
    | nil => exact absurd h (splitNl_ne_nil rest)
    | cons a t =>
      cases h3 : splitNl (rest ++ ['\n']) with
      | nil => exact absurd h3 (splitNl_ne_nil _)
      | cons b u =>
        have hbu : b :: u = a :: (t ++ [[]]) := by rw [← h3, ih, h]; rfl
        injection hbu with hb hu
        subst hb; subst hu
        by_cases hc : c = '\n' <;> simp [hc]

theorem stripTrailingEmpty_concat (xs : List String) :
    stripTrailingEmpty (xs ++ [""]) = xs := by
  simp [stripTrailingEmpty, List.getLast?_concat, List.dropLast_concat]

theorem compareTail_failed_mono (l1 : LoggerState) (lvl : Level) (ms : MapSlice)
    (exp1 : String) (r : LoggerState × List Event) :
    compareTail l1 lvl ms exp1 = Except.ok r → l1.failed = true → r.1.failed = true := by
  intro h hf
  unfold compareTail at h
  dsimp only at h
  split at h
  · cases h
  · injection h with h2; subst h2; exact hf
  · injection h with h2; subst h2; rfl

theorem compare_failed_mono (l : LoggerState) (lvl : Level) (kv : List GoValue)
    (r : LoggerState × List Event) :
    Logger.compare l lvl kv = Except.ok r → l.failed = true → r.1.failed = true := by
  intro h hf
  unfold Logger.compare at h
  rcases hr : renderLine lvl kv with ⟨exp1, evs0⟩
  rw [hr] at h
  dsimp only at h
  rcases hl : loggerLog l exp1 with ⟨l1, evs1⟩
  rw [hl] at h
  dsimp only at h
  have hl1 : l1.failed = l.failed := by
    have := loggerLog_failed l exp1
    rw [hl] at this
    exact this
  split at h
  · injection h with h2; subst h2
    exact hl1.trans hf
  · cases hct : compareTail l1 lvl (FromKeyvals kv) exp1 with
    | error e => rw [hct] at h; cases h
    | ok v =>
      rw [hct] at h
      simp only [Except.map] at h
      injection h with h2
      subst h2
      exact compareTail_failed_mono l1 lvl (FromKeyvals kv) exp1 v hct (hl1.trans hf)

theorem doneFinish_failed (l1 : LoggerState) (evs1 : List Event) :
    (doneFinish l1 evs1).1.failed = l1.failed := by
  unfold doneFinish
  dsimp only
  split <;> rfl

theorem doneMissing_failed_mono (l : LoggerState) :
    l.failed = true → (doneMissing l).1.failed = true := by
  intro hf
  unfold doneMissing
  split <;> simp [hf]

theorem cfsl_failed_mono (l : LoggerState) (r : LoggerState × List Event) :
    compareFinalSortedLogs l = Except.ok r → l.failed = true → r.1.failed = true := by
  intro h hf
  unfold compareFinalSortedLogs at h
  split at h
  · injection h with h2; subst h2; exact hf
  · split at h
    · cases h
    · split at h
      · cases h
      · dsimp only at h
        split at h
        · injection h with h2; subst h2; rfl
        · split at h
          · cases h
          · injection h with h2; subst h2; simp [hf]

theorem done_failed_mono (l : LoggerState) (r : LoggerState × List Event) :
    Done l = Except.ok r → l.failed = true → r.1.failed = true := by
  intro h hf
  unfold Done at h
  split at h
  · injection h with h2; subst h2; exact hf
  · cases hstep : (if l.ignoreOrder then compareFinalSortedLogs l else Except.ok (doneMissing l)) with
    | error e => rw [hstep] at h; cases h
    | ok p =>
      rw [hstep] at h
      injection h with h2
      subst h2
      rw [doneFinish_failed]
      by_cases hio : l.ignoreOrder
      · rw [if_pos hio] at hstep
        exact cfsl_failed_mono l p hstep hf
      · rw [if_neg hio] at hstep
        injection hstep with h3
        rw [← h3]
        exact doneMissing_failed_mono l hf

theorem applyOption_failed (l : LoggerState) (o : LoggerOption) (r : LoggerState) :
    applyOption l o = Except.ok r → r.failed = l.failed := by
  intro h
  unfold applyOption at h
  cases o with
  | withTruthFile tr =>
    dsimp only at h
    split at h
    · cases h
    · cases tr with
      | notExist => injection h with h2; subst h2; rfl
      | content s => injection h with h2; subst h2; rfl
      | readErr m => cases h
  | withActualOutputFile p => dsimp only at h; injection h with h2; subst h2; rfl
  | withoutFailure => dsimp only at h; injection h with h2; subst h2; rfl
  | withIgnoreOrder => dsimp only at h; injection h with h2; subst h2; rfl
  | withFieldIgnoreFunc f => dsimp only at h; injection h with h2; subst h2; rfl

/-- C5: once the failed flag is true it stays true for the life of the
engine: compare and Done never reset it, and no constructor option touches
it. -/
theorem C5_failed_flag_monotone :
    (∀ l lvl kv r, Logger.compare l lvl kv = Except.ok r → l.failed = true → r.1.failed = true)
    ∧ (∀ l r, Done l = Except.ok r → l.failed = true → r.1.failed = true)
    ∧ (∀ l o r, applyOption l o = Except.ok r → r.failed = l.failed) :=
  ⟨compare_failed_mono, done_failed_mono, applyOption_failed⟩

/-- A concrete already-failed engine state. -/
def c5exState : LoggerState := { initLogger with failed := true }

/-- Witness for C5: a compare call on a concrete already-failed engine
leaves the flag true. -/
theorem C5_failed_flag_monotone_witness :
    Logger.compare c5exState Level.info [] =
      Except.ok (c5exState, [Event.runnerLog ["info  \x7b\x7d\n"]]) ∧
    ((c5exState, [Event.runnerLog ["info  \x7b\x7d\n"]]) : LoggerState × List Event).1.failed = true := by
  have h : Logger.compare c5exState Level.info [] =
      Except.ok (c5exState, [Event.runnerLog ["info  \x7b\x7d\n"]]) := rfl
  exact ⟨h, C5_failed_flag_monotone.1 c5exState Level.info [] _ h rfl⟩

/-- C9: WithTruthFile on a nonexistent path yields an engine that expects
zero log lines and reports no error; an existing file is split on newlines
and a trailing final newline (or an empty file) contributes no empty final
expectation. -/
theorem C9_truth_file_loading :
    ((NewLogger [LoggerOption.withTruthFile TruthRead.notExist]).toOption.map
        (fun s => (s.truth, s.truthProvided)) = some ([], true))
    ∧ (∀ s : String,
        truthLinesOf (TruthRead.content (s ++ "\n")) = (splitNl s.data).map String.mk)
    ∧ truthLinesOf (TruthRead.content "") = [] := by
  refine ⟨rfl, ?_, rfl⟩
  intro s
  have hdata : (s ++ "\n").data = s.data ++ ['\n'] := by
    rw [String.data_append]
  simp only [truthLinesOf, hdata, splitNl_append_newline, List.map_append]
  have hmk : (List.map String.mk [[]] : List String) = [""] := rfl
  rw [hmk, stripTrailingEmpty_concat]

theorem doneMissing_actualFile (l : LoggerState) :
    (doneMissing l).1.actualFile = l.actualFile := by
  unfold doneMissing
  split <;> rfl

theorem cfsl_actualFile (l : LoggerState) (r : LoggerState × List Event) :
    compareFinalSortedLogs l = Except.ok r → r.1.actualFile = l.actualFile := by
  intro h
  unfold compareFinalSortedLogs at h
  split at h
  · injection h with h2; subst h2; rfl
  · split at h
    · cases h
    · split at h
      · cases h
      · dsimp only at h
        split at h
        · injection h with h2; subst h2; rfl
        · split at h
          · cases h
          · injection h with h2; subst h2; rfl

theorem doneFinish_getLast (l1 : LoggerState) (evs1 : List Event) :
    l1.actualFile.isSome = true →
    (doneFinish l1 evs1).2.getLast? = some Event.fileClose := by
  intro hs
  unfold doneFinish
  dsimp only
  split
  · have : (Option.map actuallyWrite l1.actualFile).isSome = true := by
      cases hx : l1.actualFile with
      | none => rw [hx] at hs; cases hs
      | some fw => rfl
    simp [this, List.getLast?_append]
  · simp [hs, List.getLast?_append]

/-- C8 (amended): whenever Done is called with failure reporting enabled
(doFail true) on an engine configured with an actual-output sink, the sink
is closed as the last action before Done returns, regardless of whether any
failure occurred. -/
theorem C8_done_closes_sink :
    ∀ l r, l.doFail = true → l.actualFile.isSome = true →
      Done l = Except.ok r → r.2.getLast? = some Event.fileClose := by
  intro l r hdo hs h
  unfold Done at h
  rw [if_neg (by simp [hdo])] at h
  cases hstep : (if l.ignoreOrder then compareFinalSortedLogs l else Except.ok (doneMissing l)) with
  | error e => rw [hstep] at h; cases h
  | ok p =>
    rw [hstep] at h
    injection h with h2
    subst h2
    have hpf : p.1.actualFile = l.actualFile := by
      by_cases hio : l.ignoreOrder
      · rw [if_pos hio] at hstep
        exact cfsl_actualFile l p hstep
      · rw [if_neg hio] at hstep
        injection hstep with h3
        rw [← h3]
        exact doneMissing_actualFile l
    exact doneFinish_getLast p.1 p.2 (by rw [hpf]; exact hs)

/-- A concrete engine with an actual-output sink and failure reporting
enabled. -/
def c8Logger : LoggerState := { initLogger with actualFile := some (newLMFW "p") }

/-- Witness for C8: Done on a concrete non-failing engine with a sink ends
with the Close call. -/
theorem C8_done_closes_sink_witness :
    Done c8Logger = Except.ok (c8Logger, [Event.fileClose]) ∧
    ([Event.fileClose] : List Event).getLast? = some Event.fileClose := by
  have h : Done c8Logger = Except.ok (c8Logger, [Event.fileClose]) := rfl
  exact ⟨h, C8_done_closes_sink c8Logger (c8Logger, [Event.fileClose]) rfl rfl h⟩

/-- The engine NewLogger produces from an actual-output path plus
WithoutFailure: the file is already promoted and doFail is off. -/
def c8NoFailLogger : LoggerState :=
  { initLogger with
    doFail := false
    actualFile := some { path := "p", buf := none, file := some "" } }

/-- C8 counterexample: on an engine configured with an actual-output sink
but with WithoutFailure, Done returns immediately with no events at all —
in particular the sink is never closed, contradicting the claim that the
sink is always closed whenever Done is called. -/
theorem C8_counterexample :
    NewLogger [LoggerOption.withActualOutputFile "p", LoggerOption.withoutFailure] =
      Except.ok c8NoFailLogger
    ∧ Done c8NoFailLogger = Except.ok (c8NoFailLogger, [])
    ∧ c8NoFailLogger.actualFile.isSome = true := ⟨rfl, rfl, rfl⟩

theorem lmfwWrite_file_none (fw : LMFW) (p : String) :
    fw.file = none → (lmfwWrite fw p).file = none := by
  intro h
  unfold lmfwWrite
  rw [h]

theorem loggerLog_notMat (l : LoggerState) (line : String) :
    NotMaterialized l → NotMaterialized (loggerLog l line).1 := by
  intro hm
  unfold loggerLog
  cases hx : l.actualFile with
  | none => exact hm
  | some fw0 =>
    dsimp only
    intro fw hfw
    have h2 : some (lmfwWrite fw0 line) = some fw := hfw
    injection h2 with h3
    rw [← h3]
    exact lmfwWrite_file_none fw0 line (hm fw0 hx)

theorem applyOption_notMat (l : LoggerState) (o : LoggerOption) (s : LoggerState) :
    applyOption l o = Except.ok s → NotMaterialized l → NotMaterialized s := by
  intro h hm
  unfold applyOption at h
  cases o with
  | withTruthFile tr =>
    dsimp only at h
    split at h
    · cases h
    · cases tr with
      | notExist => injection h with h2; subst h2; exact hm
      | content c => injection h with h2; subst h2; exact hm
      | readErr m => cases h
  | withActualOutputFile p =>
    injection h with h2; subst h2
    intro fw hfw
    injection hfw with h3
    rw [← h3]
    rfl
  | withoutFailure => injection h with h2; subst h2; exact hm
  | withIgnoreOrder => injection h with h2; subst h2; exact hm
  | withFieldIgnoreFunc f => injection h with h2; subst h2; exact hm

theorem applyOptions_notMat :
    ∀ (opts : List LoggerOption) (l s : LoggerState),
      applyOptions l opts = Except.ok s → NotMaterialized l → NotMaterialized s := by
  intro opts
  induction opts with
  | nil =>
    intro l s h hm
    injection h with h2
    subst h2
    exact hm
  | cons o rest ih =>
    intro l s h hm
    unfold applyOptions at h
    cases ho : applyOption l o with
    | error e => rw [ho] at h; cases h
    | ok l2 =>
      rw [ho] at h
      exact ih l2 s h (applyOption_notMat l o l2 ho hm)

theorem newLoggerFixups_truthProvided (l : LoggerState) :
    (newLoggerFixups l).truthProvided = l.truthProvided := by
  unfold newLoggerFixups
  dsimp only
  split <;> split <;> rfl

theorem newLoggerFixups_override (l : LoggerState) :
    (newLoggerFixups l).actualFileOverride = l.actualFileOverride := by
  unfold newLoggerFixups
  dsimp only
  split <;> split <;> rfl

theorem newLoggerFixups_notMat (l : LoggerState) :
    l.truthProvided = true → l.actualFileOverride = false →
    NotMaterialized l → NotMaterialized (newLoggerFixups l) := by
  intro ht ho hm
  unfold newLoggerFixups
  dsimp only
  have hA : (l.actualFile.isSome && (!l.truthProvided || l.actualFileOverride)) = false := by
    rw [ht, ho]; simp
  simp only [hA, Bool.false_eq_true, if_false]
  split
  · intro fw hfw
    have h2 : some (newLMFW "") = some fw := hfw
    injection h2 with h3
    rw [← h3]
    rfl
  · exact hm

theorem newLogger_notMat (opts : List LoggerOption) (s : LoggerState) :
    NewLogger opts = Except.ok s → s.truthProvided = true →
    s.actualFileOverride = false → NotMaterialized s := by
  intro h ht ho
  unfold NewLogger at h
  cases ha : applyOptions initLogger opts with
  | error e => rw [ha] at h; cases h
  | ok l =>
    rw [ha] at h
    injection h with h2
    subst h2
    have hlt : l.truthProvided = true := by rw [← newLoggerFixups_truthProvided]; exact ht
    have hlo : l.actualFileOverride = false := by rw [← newLoggerFixups_override]; exact ho
    exact newLoggerFixups_notMat l hlt hlo
      (applyOptions_notMat opts initLogger l ha (fun fw hfw => by cases hfw))

theorem compare_notMat (l : LoggerState) (lvl : Level) (kv : List GoValue)
    (r : LoggerState × List Event) :
    Logger.compare l lvl kv = Except.ok r →
    (∀ e ∈ r.2, isDiffEvent e = false) → NotMaterialized l → NotMaterialized r.1 := by
  intro h hnd hm
  unfold Logger.compare at h
  rcases hr : renderLine lvl kv with ⟨exp1, evs0⟩
  rw [hr] at h
  dsimp only at h
  rcases hl : loggerLog l exp1 with ⟨l1, evs1⟩
  rw [hl] at h
  dsimp only at h
  have hm1 : NotMaterialized l1 := by
    have := loggerLog_notMat l exp1 hm
    rw [hl] at this
    exact this
  split at h
  · injection h with h2; subst h2; exact hm1
  · cases hct : compareTail l1 lvl (FromKeyvals kv) exp1 with
    | error e => rw [hct] at h; cases h
    | ok v =>
      rw [hct] at h
      simp only [Except.map] at h
      injection h with h2
      subst h2
      unfold compareTail at hct
      dsimp only at hct
      split at hct
      · cases hct
      · injection hct with h3; rw [← h3]; exact hm1
      · exfalso
        injection hct with h3
        have hmem : Event.runnerLog [unexpectedMsgTag,
            replaceNbsp (cmpDiff (getCurrent l1) (String.mk exp1.data.dropLast))] ∈
            (evs0 ++ evs1 ++ v.2) := by
          rw [← h3]
          simp [mismatchEvents]
        have := hnd _ hmem
        simp [isDiffEvent] at this

theorem done_notMat (l : LoggerState) (r : LoggerState × List Event) :
    Done l = Except.ok r → r.1.failed = false → NotMaterialized l → NotMaterialized r.1 := by
  intro h hf hm
  unfold Done at h
  split at h
  · injection h with h2; subst h2; exact hm
  · cases hstep : (if l.ignoreOrder then compareFinalSortedLogs l else Except.ok (doneMissing l)) with
    | error e => rw [hstep] at h; cases h
    | ok p =>
      rw [hstep] at h
      injection h with h2
      subst h2
      have hpf : p.1.actualFile = l.actualFile := by
        by_cases hio : l.ignoreOrder
        · rw [if_pos hio] at hstep
          exact cfsl_actualFile l p hstep
        · rw [if_neg hio] at hstep
          injection hstep with h3
          rw [← h3]
          exact doneMissing_actualFile l
      have hmp : NotMaterialized p.1 := by
        intro fw hfw
        exact hm fw (by rw [← hpf]; exact hfw)
      have hp1f : p.1.failed = false := by
        rw [← doneFinish_failed p.1 p.2]
        exact hf
      unfold doneFinish at hf ⊢
      dsimp only at hf ⊢
      rw [if_neg (by rw [hp1f]; simp)] at hf ⊢
      exact hmp

/-- C7 (amended): when a truth transcript was provided and its file
existed, the actual-output file is lazy: it is not materialized at
construction, a compare call that reports no mismatch leaves it
unmaterialized, and a finalization that ends with the engine not failed
leaves it unmaterialized.  (When no transcript was provided, or the truth
file was missing, NewLogger materializes the file already at
construction.) -/
theorem C7_lazy_actual_file :
    (∀ opts s, NewLogger opts = Except.ok s → s.truthProvided = true →
      s.actualFileOverride = false → NotMaterialized s)
    ∧ (∀ l lvl kv r, Logger.compare l lvl kv = Except.ok r →
        (∀ e ∈ r.2, isDiffEvent e = false) → NotMaterialized l → NotMaterialized r.1)
    ∧ (∀ l r, Done l = Except.ok r → r.1.failed = false →
        NotMaterialized l → NotMaterialized r.1) :=
  ⟨newLogger_notMat, compare_notMat, done_notMat⟩

/-- The engine built from an existing truth file plus an actual-output
path. -/
def c7Logger : LoggerState :=
  { initLogger with
    truth := ["x"]
    truthProvided := true
    actualFile := some (newLMFW "p") }

/-- Witness for C7: on a concrete engine built from an existing truth file
and an actual-output path, the writer holds no materialized file. -/
theorem C7_lazy_actual_file_witness :
    NewLogger [LoggerOption.withTruthFile (TruthRead.content "x\n"),
        LoggerOption.withActualOutputFile "p"] = Except.ok c7Logger
    ∧ (newLMFW "p").file = none := by
  have h : NewLogger [LoggerOption.withTruthFile (TruthRead.content "x\n"),
      LoggerOption.withActualOutputFile "p"] = Except.ok c7Logger := rfl
  exact ⟨h, C7_lazy_actual_file.1 _ c7Logger h rfl rfl (newLMFW "p") rfl⟩

/-- The state NewLogger produces from an actual-output path alone. -/
def c7NoTruthLogger : LoggerState :=
  { initLogger with actualFile := some { path := "p", buf := none, file := some "" } }

/-- C7 counterexample: merely constructing the Logger with an actual-output
path configured (and no truth file) creates the backing file immediately:
NewLogger promotes the writer at construction, before any compare call or
finalization, contradicting the claim that construction alone never
materializes the file. -/
theorem C7_counterexample :
    NewLogger [LoggerOption.withActualOutputFile "p"] = Except.ok c7NoTruthLogger
    ∧ c7NoTruthLogger.actualFile = some { path := "p", buf := none, file := some "" } :=
  ⟨rfl, rfl⟩

theorem diffCount_nil : diffCount [] = 0 := rfl

theorem diffCount_append (a b : List Event) :
    diffCount (a ++ b) = diffCount a + diffCount b := by
  simp [diffCount, List.filter_append]

theorem diffCount_renderLine (lvl : Level) (kv : List GoValue) :
    diffCount (renderLine lvl kv).2 = 0 := by
  unfold renderLine
  cases h : JSONString (FromKeyvals kv) with
  | error e => simp [h, diffCount, errorEvents, isDiffEvent]
  | ok s => simp [h, diffCount]

theorem diffCount_loggerLog (l : LoggerState) (line : String) :
    diffCount (loggerLog l line).2 = 0 := by
  unfold loggerLog
  cases l.actualFile <;> simp [diffCount, isDiffEvent]

theorem diffCount_mismatchEvents (hyp exp2 : String) :
    diffCount (mismatchEvents hyp exp2) = 1 := by
  simp [mismatchEvents, diffCount, isDiffEvent]

theorem compare_ordered_cases (l : LoggerState) (lvl : Level) (kv : List GoValue)
    (r : LoggerState × List Event) :
    l.truthProvided = true → l.ignoreOrder = false →
    Logger.compare l lvl kv = Except.ok r →
    r.1.cur = l.cur + 1 ∧ r.1.truth = l.truth ∧ r.1.truthProvided = true ∧
    r.1.ignoreOrder = false ∧ r.1.ignorer = l.ignorer ∧
    ((diffCount r.2 = 1 ∧ r.1.failed = true) ∨
     (diffCount r.2 = 0 ∧ r.1.failed = l.failed)) := by
  intro ht hio h
  unfold Logger.compare at h
  rcases hr : renderLine lvl kv with ⟨exp1, evs0⟩
  rw [hr] at h
  dsimp only at h
  rcases hl : loggerLog l exp1 with ⟨l1, evs1⟩
  rw [hl] at h
  dsimp only at h
  have hfields : l1.truth = l.truth ∧ l1.truthProvided = l.truthProvided ∧
      l1.ignoreOrder = l.ignoreOrder ∧ l1.ignorer = l.ignorer ∧
      l1.cur = l.cur ∧ l1.failed = l.failed := by
    refine ⟨?_, ?_, ?_, ?_, ?_, ?_⟩ <;>
      [have := loggerLog_truth l exp1; have := loggerLog_truthProvided l exp1;
       have := loggerLog_ignoreOrder l exp1; have := loggerLog_ignorer l exp1;
       have := loggerLog_cur l exp1; have := loggerLog_failed l exp1] <;>
      (rw [hl] at this; exact this)
  obtain ⟨hf1, hf2, hf3, hf4, hf5, hf6⟩ := hfields
  have hev0 : diffCount evs0 = 0 := by
    have := diffCount_renderLine lvl kv
    rw [hr] at this
    exact this
  have hev1 : diffCount evs1 = 0 := by
    have := diffCount_loggerLog l exp1
    rw [hl] at this
    exact this
  rw [if_neg (by rw [hf2, hf3, ht, hio]; simp)] at h
  cases hct : compareTail l1 lvl (FromKeyvals kv) exp1 with
  | error e => rw [hct] at h; cases h
  | ok v =>
    rw [hct] at h
    simp only [Except.map] at h
    injection h with h2
    subst h2
    unfold compareTail at hct
    dsimp only at hct
    split at hct
    · cases hct
    · injection hct with h3
      rw [← h3]
      refine ⟨by rw [hf5], by rw [hf1], by rw [hf2, ht], by rw [hf3, hio], hf4, ?_⟩
      right
      constructor
      · simp [diffCount_append, hev0, hev1, diffCount_nil]
      · exact hf6
    · injection hct with h3
      rw [← h3]
      refine ⟨by rw [hf5], by rw [hf1], by rw [hf2, ht], by rw [hf3, hio], hf4, ?_⟩
      left
      constructor
      · simp [diffCount_append, hev0, hev1, diffCount_mismatchEvents]
      · rfl

theorem compare_eval_plain (l : LoggerState) (lvl : Level) (kv : List GoValue) (s : String) :
    l.ignorer = none → l.truthProvided = true → l.ignoreOrder = false →
    l.actualFile = none → JSONString (FromKeyvals kv) = Except.ok s →
    Logger.compare l lvl kv =
      (if getCurrent l = String.mk (pad5 (levelString lvl) ++ " " ++ s).data.dropLast then
         Except.ok ({ l with cur := l.cur + 1 },
           [Event.runnerLog [pad5 (levelString lvl) ++ " " ++ s]])
       else
         Except.ok ({ l with failed := true, cur := l.cur + 1 },
           Event.runnerLog [pad5 (levelString lvl) ++ " " ++ s] ::
             mismatchEvents (getCurrent l)
               (String.mk (pad5 (levelString lvl) ++ " " ++ s).data.dropLast))) := by
  intro hig ht hio haf hjs
  unfold Logger.compare
  have hr : renderLine lvl kv = (pad5 (levelString lvl) ++ " " ++ s, []) := by
    unfold renderLine; rw [hjs]
  rw [hr]
  dsimp only
  have hl : loggerLog l (pad5 (levelString lvl) ++ " " ++ s) =
      (l, [Event.runnerLog [pad5 (levelString lvl) ++ " " ++ s]]) := by
    unfold loggerLog; rw [haf]
  rw [hl]
  dsimp only
  rw [if_neg (by rw [ht, hio]; simp)]
  unfold compareTail
  dsimp only
  rw [hig]
  unfold cmpL
  by_cases heq : getCurrent l = String.mk (pad5 (levelString lvl) ++ " " ++ s).data.dropLast
  · rw [if_pos heq]
    have hd : decide (getCurrent l = String.mk (pad5 (levelString lvl) ++ " " ++ s).data.dropLast) = true := by
      rw [decide_eq_true_eq]; exact heq
    rw [hd]
    rfl
  · rw [if_neg heq]
    have hd : decide (getCurrent l = String.mk (pad5 (levelString lvl) ++ " " ++ s).data.dropLast) = false := by
      rw [decide_eq_false_iff_not]; exact heq
    rw [hd, haf]
    rfl

theorem compare_render_failure (l : LoggerState) (lvl : Level) (kv : List GoValue)
    (r : LoggerState × List Event) (e : String) :
    JSONString (FromKeyvals kv) = Except.error e →
    Logger.compare l lvl kv = Except.ok r →
    r.2.take 2 = [Event.runnerLog [loggingFailureLine ("error creating log string: " ++ e)],
                  Event.runnerFail]
    ∧ (diffCount r.2 = 0 → r.1.failed = l.failed)
    ∧ (l.truthProvided = true → l.ignoreOrder = false → r.1.cur = l.cur + 1) := by
  intro hjs h
  unfold Logger.compare at h
  have hr : renderLine lvl kv = (pad5 (levelString lvl) ++ " " ++ "",
      errorEvents ("error creating log string: " ++ e)) := by
    unfold renderLine; rw [hjs]
  rw [hr] at h
  dsimp only at h
  rcases hl : loggerLog l (pad5 (levelString lvl) ++ " " ++ "") with ⟨l1, evs1⟩
  rw [hl] at h
  dsimp only at h
  have hf2 : l1.truthProvided = l.truthProvided := by
    have := loggerLog_truthProvided l (pad5 (levelString lvl) ++ " " ++ ""); rw [hl] at this; exact this
  have hf3 : l1.ignoreOrder = l.ignoreOrder := by
    have := loggerLog_ignoreOrder l (pad5 (levelString lvl) ++ " " ++ ""); rw [hl] at this; exact this
  have hf5 : l1.cur = l.cur := by
    have := loggerLog_cur l (pad5 (levelString lvl) ++ " " ++ ""); rw [hl] at this; exact this
  have hf6 : l1.failed = l.failed := by
    have := loggerLog_failed l (pad5 (levelString lvl) ++ " " ++ ""); rw [hl] at this; exact this
  have hev1 : diffCount evs1 = 0 := by
    have := diffCount_loggerLog l (pad5 (levelString lvl) ++ " " ++ ""); rw [hl] at this; exact this
  split at h
  · rename_i hcond
    injection h with h2
    subst h2
    refine ⟨by simp [errorEvents, List.take], fun _ => hf6, fun ht hio => ?_⟩
    rw [hf2, ht, hf3, hio] at hcond
    simp at hcond
  · cases hct : compareTail l1 lvl (FromKeyvals kv) (pad5 (levelString lvl) ++ " " ++ "") with
    | error er => rw [hct] at h; cases h
    | ok v =>
      rw [hct] at h
      simp only [Except.map] at h
      injection h with h2
      subst h2
      unfold compareTail at hct
      dsimp only at hct
      have htake : (errorEvents ("error creating log string: " ++ e) ++ evs1 ++ v.2).take 2 =
          [Event.runnerLog [loggingFailureLine ("error creating log string: " ++ e)],
           Event.runnerFail] := by
        simp [errorEvents, List.take]
      split at hct
      · cases hct
      · injection hct with h3
        have hv1 : v.1.cur = l1.cur + 1 := by rw [← h3]
        have hv1f : v.1.failed = l1.failed := by rw [← h3]
        exact ⟨htake, fun _ => hv1f.trans hf6, fun _ _ => by rw [hv1, hf5]⟩
      · injection hct with h3
        have hv1 : v.1.cur = l1.cur + 1 := by rw [← h3]
        have hv2 : v.2 = mismatchEvents (getCurrent l1)
            (String.mk (pad5 (levelString lvl) ++ " " ++ "").data.dropLast) := by rw [← h3]
        refine ⟨htake, fun hdc => ?_, fun _ _ => by rw [hv1, hf5]⟩
        exfalso
        rw [hv2] at hdc
        simp [diffCount_append, diffCount_mismatchEvents] at hdc

/-- C1 (amended): a log-rendering failure inside compare is non-fatal: the
synthetic error-level logging-failure line carrying the underlying error
text is reported through the runner followed immediately by a runner.Fail
call (both during compare), the failed flag is not set by this error path
(when no mismatch is reported the flag is unchanged), and execution
continues: the cursor still advances in ordered mode. -/
theorem C1_render_failure_nonfatal :
    ∀ l lvl kv r e,
      JSONString (FromKeyvals kv) = Except.error e →
      Logger.compare l lvl kv = Except.ok r →
      r.2.take 2 = [Event.runnerLog [loggingFailureLine ("error creating log string: " ++ e)],
                    Event.runnerFail]
      ∧ (diffCount r.2 = 0 → r.1.failed = l.failed)
      ∧ (l.truthProvided = true → l.ignoreOrder = false → r.1.cur = l.cur + 1) :=
  fun l lvl kv r e hjs h => compare_render_failure l lvl kv r e hjs h

/-- The ordered engine whose only expected line is the mangled line a
render failure produces. -/
def c1Logger : LoggerState := orderedLogger ["info "]

/-- The result state of the C1 run. -/
def c1ResState : LoggerState := { c1Logger with cur := 1 }

/-- The event trace of the C1 run. -/
def c1ResEvents : List Event :=
  [Event.runnerLog [loggingFailureLine "error creating log string: boom"],
   Event.runnerFail,
   Event.runnerLog ["info  "]]

/-- Witness for C1 at a concrete failing-marshaler call. -/
theorem C1_render_failure_nonfatal_witness :
    c1ResEvents.take 2 =
      [Event.runnerLog [loggingFailureLine ("error creating log string: " ++ "boom")],
       Event.runnerFail]
    ∧ (diffCount c1ResEvents = 0 → c1ResState.failed = c1Logger.failed)
    ∧ (c1Logger.truthProvided = true → c1Logger.ignoreOrder = false →
        c1ResState.cur = c1Logger.cur + 1) := by
  have hjs : JSONString (FromKeyvals [GoValue.str "k", GoValue.jsonMErr "boom"]) =
      Except.error "boom" := rfl
  have hc : Logger.compare c1Logger Level.info [GoValue.str "k", GoValue.jsonMErr "boom"] =
      Except.ok (c1ResState, c1ResEvents) := rfl
  exact C1_render_failure_nonfatal c1Logger Level.info
    [GoValue.str "k", GoValue.jsonMErr "boom"] (c1ResState, c1ResEvents) "boom" hjs hc

/-- C1 counterexample: on a concrete render failure, compare itself emits
runner.Fail (the second event of its trace, before any finalization), and
the failed flag is NOT set — the run ends with failed = false although the
sink was failed during compare.  This contradicts the claim that the
failure signal is raised only at finalization and that the failed flag is
set by the render-failure path. -/
theorem C1_counterexample :
    Logger.compare c1Logger Level.info [GoValue.str "k", GoValue.jsonMErr "boom"] =
      Except.ok (c1ResState, c1ResEvents)
    ∧ c1ResEvents.get? 1 = some Event.runnerFail
    ∧ c1ResState.failed = false := ⟨rfl, rfl, rfl⟩

/-- C2: in strict-ordered mode with a transcript, every compare call
advances the cursor by exactly one whether or not the line matched, a
mismatching call reports exactly one diff and sets failed, and a matching
call reports none; on expected lines a and b with an actual run rendering
first a line different from a and then exactly b, exactly one mismatch is
reported in total, failed is true, and the cursor has advanced past both. -/
theorem C2_lockstep_cursor :
    (∀ l lvl kv r, l.truthProvided = true → l.ignoreOrder = false →
      Logger.compare l lvl kv = Except.ok r →
      r.1.cur = l.cur + 1 ∧
      ((diffCount r.2 = 1 ∧ r.1.failed = true) ∨ (diffCount r.2 = 0 ∧ r.1.failed = l.failed)))
    ∧ (∀ a b lvl1 kv1 lvl2 kv2 x r1 r2,
        renderedLine lvl1 kv1 = some x → x ≠ a → renderedLine lvl2 kv2 = some b →
        Logger.compare (orderedLogger [a, b]) lvl1 kv1 = Except.ok r1 →
        Logger.compare r1.1 lvl2 kv2 = Except.ok r2 →
        diffCount (r1.2 ++ r2.2) = 1 ∧ r2.1.failed = true ∧ r2.1.cur = 2) := by
  constructor
  · intro l lvl kv r ht hio h
    obtain ⟨h1, _, _, _, _, h6⟩ := compare_ordered_cases l lvl kv r ht hio h
    exact ⟨h1, h6⟩
  · intro a b lvl1 kv1 lvl2 kv2 x r1 r2 hx hne hb h1 h2
    cases hjs1 : JSONString (FromKeyvals kv1) with
    | error e =>
      unfold renderedLine at hx
      rw [hjs1] at hx
      exact Option.noConfusion hx
    | ok s1 =>
      have hx1 : String.mk (pad5 (levelString lvl1) ++ " " ++ s1).data.dropLast = x := by
        unfold renderedLine at hx
        rw [hjs1] at hx
        have hsome : some (String.mk (pad5 (levelString lvl1) ++ " " ++ s1).data.dropLast) = some x := hx
        injection hsome
      cases hjs2 : JSONString (FromKeyvals kv2) with
      | error e =>
        unfold renderedLine at hb
        rw [hjs2] at hb
        exact Option.noConfusion hb
      | ok s2 =>
        have hb1 : String.mk (pad5 (levelString lvl2) ++ " " ++ s2).data.dropLast = b := by
          unfold renderedLine at hb
          rw [hjs2] at hb
          have hsome : some (String.mk (pad5 (levelString lvl2) ++ " " ++ s2).data.dropLast) = some b := hb
          injection hsome
        have he1 := compare_eval_plain (orderedLogger [a, b]) lvl1 kv1 s1 rfl rfl rfl rfl hjs1
        rw [he1] at h1
        rw [if_neg (by
          rw [hx1]
          exact fun hh => hne (hh.symm))] at h1
        injection h1 with h1e
        subst h1e
        dsimp only at h2
        have he2 := compare_eval_plain
          { orderedLogger [a, b] with failed := true, cur := (orderedLogger [a, b]).cur + 1 }
          lvl2 kv2 s2 rfl rfl rfl rfl hjs2
        rw [he2] at h2
        rw [if_pos (by rw [hb1]; rfl)] at h2
        injection h2 with h2e
        subst h2e
        refine ⟨?_, rfl, rfl⟩
        simp [diffCount_append, diffCount_mismatchEvents, diffCount, isDiffEvent,
          List.filter]

/-- The state after the mismatching first call of the C2 scenario. -/
def c2MidState : LoggerState :=
  { orderedLogger ["x", "info  \x7b\x7d"] with failed := true, cur := 1 }

/-- The events of the mismatching first call of the C2 scenario. -/
def c2FirstEvents : List Event :=
  [Event.runnerLog ["info  \x7b\x7d\n"],
   Event.runnerLog [unexpectedMsgTag, replaceNbsp (cmpDiff "x" "info  \x7b\x7d")]]

/-- Witness for C2: expected lines "x-mismatch" then match; one diff in
total, failed set, cursor past both. -/
theorem C2_lockstep_cursor_witness :
    diffCount (((c2MidState, c2FirstEvents) : LoggerState × List Event).2 ++
        (({ c2MidState with cur := 2 }, [Event.runnerLog ["info  \x7b\x7d\n"]]) :
          LoggerState × List Event).2) = 1
    ∧ (({ c2MidState with cur := 2 }, [Event.runnerLog ["info  \x7b\x7d\n"]]) :
        LoggerState × List Event).1.failed = true
    ∧ (({ c2MidState with cur := 2 }, [Event.runnerLog ["info  \x7b\x7d\n"]]) :
        LoggerState × List Event).1.cur = 2 := by
  have h1 : Logger.compare (orderedLogger ["x", "info  \x7b\x7d"]) Level.info [] =
      Except.ok (c2MidState, c2FirstEvents) := rfl
  have h2 : Logger.compare (c2MidState, c2FirstEvents).1 Level.info [] =
      Except.ok ({ c2MidState with cur := 2 }, [Event.runnerLog ["info  \x7b\x7d\n"]]) := rfl
  exact C2_lockstep_cursor.2 "x" "info  \x7b\x7d" Level.info [] Level.info []
    "info  \x7b\x7d" (c2MidState, c2FirstEvents)
    ({ c2MidState with cur := 2 }, [Event.runnerLog ["info  \x7b\x7d\n"]])
    rfl (by decide) rfl h1 h2


theorem charsLe_total : ∀ a b : List Char, charsLe a b = true ∨ charsLe b a = true := by
  intro a
  induction a with
  | nil => intro b; left; rfl
  | cons x xs ih =>
    intro b
    cases b with
    | nil => right; rfl
    | cons y ys =>
      simp only [charsLe]
      by_cases hxy : x.toNat < y.toNat
      · left; rw [if_pos hxy]
      · by_cases hyx : y.toNat < x.toNat
        · right; rw [if_pos hyx]
        · rcases ih ys with h | h
          · left; rw [if_neg hxy, if_neg hyx]; exact h
          · right; rw [if_neg hyx, if_neg hxy]; exact h

theorem charsLe_trans :
    ∀ a b c : List Char, charsLe a b = true → charsLe b c = true → charsLe a c = true := by
  intro a
  induction a with
  | nil => intro b c _ _; rfl
  | cons x xs ih =>
    intro b c hab hbc
    cases b with
    | nil => simp [charsLe] at hab
    | cons y ys =>
      cases c with
      | nil => simp [charsLe] at hbc
      | cons z zs =>
        simp only [charsLe] at hab hbc ⊢
        by_cases hxy : x.toNat < y.toNat
        · by_cases hyz : y.toNat < z.toNat
          · rw [if_pos (by omega)]
          · by_cases hzy : z.toNat < y.toNat
            · rw [if_neg hyz, if_pos hzy] at hbc
              exact absurd hbc (by simp)
            · rw [if_pos (by omega)]
        · by_cases hyx : y.toNat < x.toNat
          · rw [if_neg hxy, if_pos hyx] at hab
            exact absurd hab (by simp)
          · rw [if_neg hxy, if_neg hyx] at hab
            by_cases hyz : y.toNat < z.toNat
            · rw [if_pos (by omega)]
            · by_cases hzy : z.toNat < y.toNat
              · rw [if_neg hyz, if_pos hzy] at hbc
                exact absurd hbc (by simp)
              · rw [if_neg hyz, if_neg hzy] at hbc
                rw [if_neg (by omega), if_neg (by omega)]
                exact ih ys zs hab hbc

theorem charsLe_antisymm :
    ∀ a b : List Char, charsLe a b = true → charsLe b a = true → a = b := by
  intro a
  induction a with
  | nil =>
    intro b hab hba
    cases b with
    | nil => rfl
    | cons y ys => simp [charsLe] at hba
  | cons x xs ih =>
    intro b hab hba
    cases b with
    | nil => simp [charsLe] at hab
    | cons y ys =>
      simp only [charsLe] at hab hba
      by_cases hxy : x.toNat < y.toNat
      · rw [if_neg (by omega), if_pos hxy] at hba
        exact absurd hba (by simp)
      · by_cases hyx : y.toNat < x.toNat
        · rw [if_neg hxy, if_pos hyx] at hab
          exact absurd hab (by simp)
        · rw [if_neg hxy, if_neg hyx] at hab
          rw [if_neg hyx, if_neg hxy] at hba
          have hnat : x.toNat = y.toNat := by omega
          have hval : x.val.toNat = y.val.toNat := hnat
          have hchar : x = y := Char.ext (UInt32.ext hval)
          subst hchar
          rw [ih ys hab hba]

instance : IsTotal String strLeProp :=
  ⟨fun a b => charsLe_total a.data b.data⟩

instance : IsTrans String strLeProp :=
  ⟨fun a b c => charsLe_trans a.data b.data c.data⟩

instance : IsAntisymm String strLeProp :=
  ⟨fun a b h1 h2 => by
    cases a; cases b
    exact congrArg String.mk (charsLe_antisymm _ _ h1 h2)⟩

theorem finalLoop_error_of_bad (ig : Option FieldIgnoreFunc) :
    ∀ pairs : List (String × String),
      (∃ p ∈ pairs, p.2.data.length < 6 ∨ unmarshalMapSlice (p.2.data.drop 6) = none) →
      ∃ e, finalLoop ig pairs = Except.error e := by
  intro pairs
  induction pairs with
  | nil =>
    rintro ⟨p, hp, _⟩
    cases hp
  | cons q rest ih =>
    rintro ⟨p, hp, hbad⟩
    obtain ⟨w, g⟩ := q
    rcases List.mem_cons.mp hp with heq | hmem
    · rw [heq] at hbad
      dsimp only at hbad
      unfold finalLoop
      by_cases hl : g.data.length < 6
      · rw [if_pos hl]
        exact ⟨_, rfl⟩
      · rw [if_neg hl]
        dsimp only
        rcases hbad with hlen | hparse
        · exact absurd hlen hl
        · cases hum : unmarshalMapSlice (g.data.drop 6) with
          | none => exact ⟨_, rfl⟩
          | some gm => exact absurd hum (by rw [hparse]; simp)
    · unfold finalLoop
      by_cases hl : g.data.length < 6
      · rw [if_pos hl]
        exact ⟨_, rfl⟩
      · rw [if_neg hl]
        dsimp only
        cases hum : unmarshalMapSlice (g.data.drop 6) with
        | none => exact ⟨_, rfl⟩
        | some gm =>
          dsimp only
          cases hc : cmpL ig w g (levelFromString (String.mk (g.data.take 6))) gm with
          | error e => exact ⟨e, rfl⟩
          | ok bv =>
            obtain ⟨e, he⟩ := ih ⟨p, hmem, hbad⟩
            cases bv with
            | true => exact ⟨e, he⟩
            | false =>
              cases hfl : finalLoop ig rest with
              | error e2 => exact ⟨e2, rfl⟩
              | ok v => exact absurd (he.symm.trans hfl) (by simp)

/-- C10 (amended): with a field-ignore function configured, cmp panics (a
Go slice-bounds panic or the explicit panic on an unmarshal error) when the
non-empty expected truth line is shorter than six characters or its body
after the level prefix fails to parse as JSON; and order-insensitive
finalization likewise panics when the sorted lists have equal length and
some actual line is shorter than six characters or has an unparseable body
(with differing lengths, the aggregate count mismatch is reported without
parsing any line).  These panics are not routed through the synthetic
logging-failure path: the computation aborts with an error instead of
producing report events. -/
theorem C10_parse_failures_panic :
    (∀ ig hyp exp lvl m, hyp ≠ "" → hyp.data.length < 6 →
      ∃ e, cmpL (some ig) hyp exp lvl m = Except.error e)
    ∧ (∀ ig hyp exp lvl m, hyp ≠ "" → ¬ hyp.data.length < 6 →
        unmarshalMapSlice (hyp.data.drop 6) = none →
        ∃ e, cmpL (some ig) hyp exp lvl m = Except.error e)
    ∧ (∀ l fw bs, l.truthProvided = true → l.actualFile = some fw → fw.buf = some bs →
        (sortStrings l.truth).length =
          (sortStrings (stripTrailingEmpty ((splitNl bs.data).map String.mk))).length →
        (∃ p ∈ (sortStrings l.truth).zip
            (sortStrings (stripTrailingEmpty ((splitNl bs.data).map String.mk))),
          p.2.data.length < 6 ∨ unmarshalMapSlice (p.2.data.drop 6) = none) →
        ∃ e, compareFinalSortedLogs l = Except.error e) := by
  refine ⟨?_, ?_, ?_⟩
  · intro ig hyp exp lvl m hne hlen
    unfold cmpL
    dsimp only
    rw [if_neg hne, if_pos hlen]
    exact ⟨_, rfl⟩
  · intro ig hyp exp lvl m hne hlen hparse
    unfold cmpL
    dsimp only
    rw [if_neg hne, if_neg hlen]
    cases hum : unmarshalMapSlice (hyp.data.drop 6) with
    | none => exact ⟨_, rfl⟩
    | some hm => exact absurd hum (by rw [hparse]; simp)
  · intro l fw bs ht haf hbuf hlen hbad
    unfold compareFinalSortedLogs
    rw [if_neg (by rw [ht]; simp), haf]
    dsimp only
    rw [hbuf]
    dsimp only
    rw [if_neg (by rw [hlen]; simp)]
    obtain ⟨e, he⟩ := finalLoop_error_of_bad l.ignorer _ hbad
    cases hfl : finalLoop l.ignorer ((sortStrings l.truth).zip
        (sortStrings (stripTrailingEmpty ((splitNl bs.data).map String.mk)))) with
    | error e2 => exact ⟨e2, rfl⟩
    | ok v => exact absurd (he.symm.trans hfl) (by simp)

/-- Witness for C10: cmp with an ignorer on a concrete three-character
truth line panics. -/
theorem C10_parse_failures_panic_witness :
    ("abc" : String) ≠ "" ∧ ("abc" : String).data.length < 6 ∧
    ∃ e, cmpL (some (fun _ => [])) "abc" "" Level.info [] = Except.error e :=
  ⟨by decide, by decide,
   C10_parse_failures_panic.1 (fun _ => []) "abc" "" Level.info [] (by decide) (by decide)⟩

/-- An order-insensitive engine whose single accumulated actual line is
unparseable while the expected list has two lines. -/
def c10Logger : LoggerState :=
  { initLogger with
    truth := ["a", "b"]
    truthProvided := true
    ignoreOrder := true
    ignorer := some (fun _ => [])
    actualFile := some { path := "", buf := some "xx\n", file := none } }

/-- C10 counterexample: the accumulated actual line "xx" cannot be parsed
(it is even shorter than the level prefix), yet order-insensitive
finalization does NOT panic: the length mismatch is detected first and
reported as the single aggregate diff.  This contradicts the claim that
finalization panics whenever some accumulated actual line fails to
parse. -/
theorem C10_counterexample :
    compareFinalSortedLogs c10Logger =
      Except.ok ({ c10Logger with failed := true },
        [Event.runnerLog [countMsgTag, replaceNbsp (cmpDiffList ["a", "b"] ["xx"])]])
    ∧ ("xx" : String).data.length < 6 := ⟨rfl, by decide⟩

theorem cmpLoop_true_iff (ig : List String) :
    ∀ hm em : MapSlice, hm.length = em.length →
      (cmpLoop ig hm em = Except.ok true ↔ CmpFieldsOk ig hm em) := by
  intro hm
  induction hm with
  | nil =>
    intro em hlen
    constructor
    · intro _ p hp
      have hz : (List.zip ([] : MapSlice) em) = [] := rfl
      rw [hz] at hp
      cases hp
    · intro _
      rfl
  | cons h hs ih =>
    intro em hlen
    cases em with
    | nil => simp at hlen
    | cons e es =>
      have hlen2 : hs.length = es.length := by simpa using hlen
      unfold cmpLoop
      by_cases hk : h.key ≠ e.key
      · rw [if_pos hk]
        constructor
        · intro hfalse
          injection hfalse with hb
          cases hb
        · intro hco
          exact absurd (hco (h, e) (by rw [List.zip_cons_cons]; exact List.mem_cons_self _ _)).1 hk
      · rw [if_neg hk]
        push_neg at hk
        by_cases hig : sliceContains ig h.key = true
        · rw [if_pos hig]
          rw [ih es hlen2]
          constructor
          · intro htail p hp
            rw [List.zip_cons_cons] at hp
            rcases List.mem_cons.mp hp with hph | hpt
            · subst hph
              exact ⟨hk, fun hnig => absurd hig (by rw [hnig]; simp)⟩
            · exact htail p hpt
          · intro hco p hp
            exact hco p (by rw [List.zip_cons_cons]; exact List.mem_cons_of_mem _ hp)
        · rw [if_neg hig]
          have higf : sliceContains ig h.key = false := by
            cases hx : sliceContains ig h.key
            · rfl
            · exact absurd hx hig
          cases hsv : StringFromValue e.value with
          | error er =>
            dsimp only
            constructor
            · intro habs
              cases habs
            · intro hco
              obtain ⟨s, hs1, _⟩ := (hco (h, e)
                (by rw [List.zip_cons_cons]; exact List.mem_cons_self _ _)).2 higf
              rw [hsv] at hs1
              cases hs1
          | ok s =>
            dsimp only
            by_cases hv : goValEqString h.value s = true
            · rw [if_pos hv]
              rw [ih es hlen2]
              constructor
              · intro htail p hp
                rw [List.zip_cons_cons] at hp
                rcases List.mem_cons.mp hp with hph | hpt
                · subst hph
                  exact ⟨hk, fun _ => ⟨s, hsv, hv⟩⟩
                · exact htail p hpt
              · intro hco p hp
                exact hco p (by rw [List.zip_cons_cons]; exact List.mem_cons_of_mem _ hp)
            · rw [if_neg hv]
              constructor
              · intro hfalse
                injection hfalse with hb
                cases hb
              · intro hco
                obtain ⟨s2, hs2, hv2⟩ := (hco (h, e)
                  (by rw [List.zip_cons_cons]; exact List.mem_cons_self _ _)).2 higf
                rw [hsv] at hs2
                injection hs2 with hs3
                subst hs3
                exact absurd hv2 hv

/-- C3 (amended): the comparison rule.  With no field-ignore function it is
byte-exact string equality.  With one configured: an empty expected line is
always unequal; unequal field counts are unequal; a level-prefix mismatch
is unequal; and otherwise the comparison succeeds exactly when keys match
pairwise at every position and, for every field whose name is not in the
set returned by the ignore function applied to the expected-line fields, the
expected-line value (as unmarshalled) equals the string canonicalization of
the actual value — so value comparison is skipped exactly for the exempted
field names, and field presence and order are always checked. -/
theorem C3_comparison_rule :
    (∀ hyp exp lvl m, cmpL none hyp exp lvl m = Except.ok (decide (hyp = exp)))
    ∧ (∀ ig exp lvl m, cmpL (some ig) "" exp lvl m = Except.ok false)
    ∧ (∀ ig hyp exp lvl m hypMap, hyp ≠ "" → ¬ hyp.data.length < 6 →
        unmarshalMapSlice (hyp.data.drop 6) = some hypMap →
        hypMap.length ≠ m.length →
        cmpL (some ig) hyp exp lvl m = Except.ok false)
    ∧ (∀ ig hyp exp lvl m hypMap, hyp ≠ "" → ¬ hyp.data.length < 6 →
        unmarshalMapSlice (hyp.data.drop 6) = some hypMap →
        hypMap.length = m.length →
        ¬ (levelString lvl).data.isPrefixOf hyp.data = true →
        cmpL (some ig) hyp exp lvl m = Except.ok false)
    ∧ (∀ ig hyp exp lvl m hypMap fm, hyp ≠ "" → ¬ hyp.data.length < 6 →
        unmarshalMapSlice (hyp.data.drop 6) = some hypMap →
        hypMap.length = m.length →
        (levelString lvl).data.isPrefixOf hyp.data = true →
        ToStringMap hypMap = Except.ok fm →
        (cmpL (some ig) hyp exp lvl m = Except.ok true ↔ CmpFieldsOk (ig fm) hypMap m)) := by
  refine ⟨fun _ _ _ _ => rfl, fun _ _ _ _ => rfl, ?_, ?_, ?_⟩
  · intro ig hyp exp lvl m hypMap hne hlen hum hcount
    unfold cmpL
    dsimp only
    rw [if_neg hne, if_neg hlen, hum]
    dsimp only
    rw [if_pos hcount]
  · intro ig hyp exp lvl m hypMap hne hlen hum hcount hpre
    unfold cmpL
    dsimp only
    rw [if_neg hne, if_neg hlen, hum]
    dsimp only
    rw [if_neg (by rw [hcount]; simp), if_pos hpre]
  · intro ig hyp exp lvl m hypMap fm hne hlen hum hcount hpre htsm
    unfold cmpL
    dsimp only
    rw [if_neg hne, if_neg hlen, hum]
    dsimp only
    rw [if_neg (by rw [hcount]; simp), if_neg (by rw [hpre]; simp), htsm]
    dsimp only
    exact cmpLoop_true_iff (ig fm) hypMap m hcount

/-- The concrete field-masked comparison of the witness: truth line and
actual line identical except in the exempted id field value. -/
def c3Ignorer : FieldIgnoreFunc := fun _ => ["id"]

/-- Witness for C3: an expected line whose id value differs from the
rendered line compares by the field rule, and the field condition holds, so
cmp yields true. -/
theorem C3_comparison_rule_witness :
    (cmpL (some c3Ignorer) "info  \x7b\"id\":\"42\"\x7d" "info  \x7b\"id\":\"99\"\x7d"
        Level.info [{ key := "id", value := GoValue.str "99" }] = Except.ok true ↔
      CmpFieldsOk (c3Ignorer [("id", "42")])
        [{ key := "id", value := GoValue.str "42" }]
        [{ key := "id", value := GoValue.str "99" }]) :=
  C3_comparison_rule.2.2.2.2 c3Ignorer "info  \x7b\"id\":\"42\"\x7d" "info  \x7b\"id\":\"99\"\x7d"
    Level.info [{ key := "id", value := GoValue.str "99" }]
    [{ key := "id", value := GoValue.str "42" }] [("id", "42")]
    (by decide) (by decide) rfl rfl (by decide) rfl

/-- C3 counterexample: the claim states that non-exempt values are compared
after canonicalizing the EXPECTED value to its string form.  The code
canonicalizes the ACTUAL value instead and compares it against the raw
unmarshalled expected value.  On a truth line whose field value is the JSON
boolean true and an actual call whose value is the Go string "true"
(rendered as a JSON string), the rule as claimed (cmpClaimed) accepts while
the code (cmpL) rejects: Go interface equality between the unmarshalled
boolean and the canonicalized string "true" fails. -/
theorem C3_counterexample :
    cmpL (some (fun _ => [])) "info  \x7b\"k\":true\x7d" "info  \x7b\"k\":\"true\"\x7d"
      Level.info [{ key := "k", value := GoValue.str "true" }] = Except.ok false
    ∧ cmpClaimed (some (fun _ => [])) "info  \x7b\"k\":true\x7d" "info  \x7b\"k\":\"true\"\x7d"
        Level.info [{ key := "k", value := GoValue.str "true" }] = Except.ok true
    ∧ renderedLine Level.info [GoValue.str "k", GoValue.pbool true] =
        some "info  \x7b\"k\":\"true\"\x7d" := ⟨rfl, rfl, rfl⟩

/-! ## C4: order-insensitive finalization -/

/-- Whether the cmp rule rejects a sorted (want, got) pair, so that the
finalization walk reports a diff for it. -/
def badPair (ig : Option FieldIgnoreFunc) (p : String × String) : Bool :=
  match pairCmp ig p.1 p.2 with
  | Except.ok false => true
  | _ => false

/-- The diff event the finalization walk reports for a mismatching sorted
pair. -/
def pairDiffEvent (p : String × String) : Event :=
  Event.runnerLog [unexpectedMsgTag, replaceNbsp (cmpDiff p.1 p.2)]

/-- In order-insensitive mode a compare call performs no comparison: the
cursor and the failed flag are untouched and no diff is reported. -/
theorem compare_ignoreOrder_skip (l : LoggerState) (lvl : Level) (kv : List GoValue)
    (r : LoggerState × List Event) (hio : l.ignoreOrder = true)
    (h : Logger.compare l lvl kv = Except.ok r) :
    r.1.cur = l.cur ∧ r.1.failed = l.failed ∧ diffCount r.2 = 0 := by
  unfold Logger.compare at h
  rcases hr : renderLine lvl kv with ⟨exp1, evs0⟩
  rw [hr] at h
  dsimp only at h
  rcases hll : loggerLog l exp1 with ⟨l1, evs1⟩
  rw [hll] at h
  dsimp only at h
  have hio1 : l1.ignoreOrder = true := by
    have h2 := loggerLog_ignoreOrder l exp1
    rw [hll] at h2
    exact h2.trans hio
  rw [if_pos (Or.inr hio1)] at h
  injection h with hres
  rw [← hres]
  dsimp only
  refine ⟨?_, ?_, ?_⟩
  · have hc := loggerLog_cur l exp1
    rw [hll] at hc
    exact hc
  · have hf := loggerLog_failed l exp1
    rw [hll] at hf
    exact hf
  · rw [diffCount_append]
    have hd0 := diffCount_renderLine lvl kv
    rw [hr] at hd0
    have hd1 := diffCount_loggerLog l exp1
    rw [hll] at hd1
    rw [hd0, hd1]

/-- When the sorted lists have different lengths, finalization reports
exactly the single aggregate count diff (carrying both full sorted lists)
and sets failed, with no per-line diff. -/
theorem cfsl_count_mismatch (l : LoggerState) (fw : LMFW) (bs : String)
    (htp : l.truthProvided = true) (haf : l.actualFile = some fw)
    (hbuf : fw.buf = some bs)
    (hne : (sortStrings l.truth).length ≠
      (sortStrings (stripTrailingEmpty ((splitNl bs.data).map String.mk))).length) :
    compareFinalSortedLogs l = Except.ok ({ l with failed := true },
      [Event.runnerLog [countMsgTag, replaceNbsp (cmpDiffList (sortStrings l.truth)
        (sortStrings (stripTrailingEmpty ((splitNl bs.data).map String.mk))))]]) := by
  unfold compareFinalSortedLogs
  rw [if_neg (by simp [htp])]
  rw [haf]
  dsimp only
  rw [hbuf]
  dsimp only
  rw [if_pos hne]

/-- The finalization walk in full: its events are one diff per rejected
sorted pair, in order and without short-circuit, and the bad flag is
whether some pair is rejected. -/
theorem finalLoop_ok_events (ig : Option FieldIgnoreFunc) :
    ∀ (pairs : List (String × String)) (evs : List Event) (bad : Bool),
      finalLoop ig pairs = Except.ok (evs, bad) →
      evs = (pairs.filter (badPair ig)).map pairDiffEvent
        ∧ bad = pairs.any (badPair ig) := by
  intro pairs
  induction pairs with
  | nil =>
    intro evs bad h
    injection h with h2
    injection h2 with ha hb
    subst ha
    subst hb
    exact ⟨rfl, rfl⟩
  | cons q rest ih =>
    obtain ⟨w, g⟩ := q
    intro evs bad h
    unfold finalLoop at h
    by_cases hl : g.data.length < 6
    · rw [if_pos hl] at h
      cases h
    · rw [if_neg hl] at h
      dsimp only at h
      cases hum : unmarshalMapSlice (g.data.drop 6) with
      | none =>
        rw [hum] at h
        cases h
      | some gm =>
        rw [hum] at h
        dsimp only at h
        cases hc : cmpL ig w g (levelFromString (String.mk (g.data.take 6))) gm with
        | error e =>
          rw [hc] at h
          cases h
        | ok bv =>
          rw [hc] at h
          have hpc : pairCmp ig w g = Except.ok bv := by
            unfold pairCmp
            rw [if_neg hl, hum]
            exact hc
          cases bv with
          | true =>
            dsimp only at h
            have hbp : badPair ig (w, g) = false := by
              unfold badPair
              dsimp only
              rw [hpc]
            obtain ⟨he, hb⟩ := ih evs bad h
            constructor
            · rw [List.filter_cons]
              simp only [hbp, Bool.false_eq_true, if_false]
              exact he
            · rw [List.any_cons, hbp, Bool.false_or]
              exact hb
          | false =>
            dsimp only at h
            have hbp : badPair ig (w, g) = true := by
              unfold badPair
              dsimp only
              rw [hpc]
            cases hfl : finalLoop ig rest with
            | error e =>
              rw [hfl] at h
              cases h
            | ok v =>
              obtain ⟨ev2, bd2⟩ := v
              rw [hfl] at h
              dsimp only at h
              injection h with h2
              injection h2 with ha hb
              subst ha
              subst hb
              obtain ⟨he, _⟩ := ih ev2 bd2 hfl
              constructor
              · rw [List.filter_cons]
                simp only [hbp, if_true]
                rw [List.map_cons, ← he]
                rfl
              · rw [List.any_cons, hbp, Bool.true_or]

/-- When the sorted lists have equal lengths, finalization walks the zipped
pairs: the reported events are exactly one diff per rejected pair and the
failed flag is the old flag or-ed with whether any pair is rejected. -/
theorem cfsl_equal_length (l : LoggerState) (fw : LMFW) (bs : String)
    (r : LoggerState × List Event)
    (htp : l.truthProvided = true) (haf : l.actualFile = some fw)
    (hbuf : fw.buf = some bs)
    (heq : (sortStrings l.truth).length =
      (sortStrings (stripTrailingEmpty ((splitNl bs.data).map String.mk))).length)
    (h : compareFinalSortedLogs l = Except.ok r) :
    r.2 = (((sortStrings l.truth).zip
        (sortStrings (stripTrailingEmpty ((splitNl bs.data).map String.mk)))).filter
        (badPair l.ignorer)).map pairDiffEvent
    ∧ r.1.failed = (l.failed ||
        ((sortStrings l.truth).zip
          (sortStrings (stripTrailingEmpty ((splitNl bs.data).map String.mk)))).any
          (badPair l.ignorer)) := by
  unfold compareFinalSortedLogs at h
  rw [if_neg (by simp [htp])] at h
  rw [haf] at h
  dsimp only at h
  rw [hbuf] at h
  dsimp only at h
  rw [if_neg (not_not_intro heq)] at h
  cases hfl : finalLoop l.ignorer ((sortStrings l.truth).zip
      (sortStrings (stripTrailingEmpty ((splitNl bs.data).map String.mk)))) with
  | error e =>
    rw [hfl] at h
    cases h
  | ok v =>
    obtain ⟨evs, bad⟩ := v
    rw [hfl] at h
    dsimp only at h
    injection h with hres
    rw [← hres]
    dsimp only
    obtain ⟨he, hb⟩ := finalLoop_ok_events l.ignorer _ evs bad hfl
    exact ⟨he, by rw [hb]⟩

/-- Every member of the zip of a list with itself is a duplicated member of
the list. -/
theorem zip_same_mem : ∀ (l : List String) (p : String × String),
    p ∈ l.zip l → p.1 = p.2 ∧ p.1 ∈ l := by
  intro l
  induction l with
  | nil =>
    intro p hp
    cases hp
  | cons x t ih =>
    intro p hp
    rw [List.zip_cons_cons] at hp
    rcases List.mem_cons.mp hp with h1 | h2
    · subst h1
      exact ⟨rfl, List.mem_cons_self x t⟩
    · obtain ⟨he, hm⟩ := ih p h2
      exact ⟨he, List.mem_cons_of_mem x hm⟩

/-- Sorting is invariant under permutation: two lists that are permutations
of each other sort to the same list (string order is antisymmetric). -/
theorem sortStrings_perm_eq (A B : List String) (h : A.Perm B) :
    sortStrings A = sortStrings B := by
  unfold sortStrings
  exact @List.eq_of_perm_of_sorted String strLeProp _ _ _
    ((List.perm_insertionSort strLeProp A).trans
      (h.trans (List.perm_insertionSort strLeProp B).symm))
    (List.sorted_insertionSort strLeProp A)
    (List.sorted_insertionSort strLeProp B)

/-- If every pair passes the cmp rule, the finalization walk reports
nothing and leaves the bad flag unset. -/
theorem finalLoop_ok_of_all_true (ig : Option FieldIgnoreFunc) :
    ∀ pairs : List (String × String),
      (∀ p ∈ pairs, pairCmp ig p.1 p.2 = Except.ok true) →
      finalLoop ig pairs = Except.ok ([], false) := by
  intro pairs
  induction pairs with
  | nil => intro _; rfl
  | cons q rest ih =>
    obtain ⟨w, g⟩ := q
    intro hall
    have hpc : pairCmp ig w g = Except.ok true := hall (w, g) (List.mem_cons_self _ _)
    unfold pairCmp at hpc
    unfold finalLoop
    by_cases hl : g.data.length < 6
    · rw [if_pos hl] at hpc
      cases hpc
    · rw [if_neg hl] at hpc
      rw [if_neg hl]
      dsimp only
      cases hum : unmarshalMapSlice (g.data.drop 6) with
      | none =>
        rw [hum] at hpc
        cases hpc
      | some gm =>
        rw [hum] at hpc
        dsimp only at hpc
        dsimp only
        rw [hpc]
        exact ih (fun p hp => hall p (List.mem_cons_of_mem _ hp))

/-- With no field-ignore function configured, every expected line at least
6 characters with a parseable body, and the accumulated actual lines a
permutation of the expected lines, order-insensitive finalization reports
nothing and leaves the state unchanged. -/
theorem cfsl_perm_no_ignorer (l : LoggerState) (fw : LMFW) (bs : String)
    (htp : l.truthProvided = true) (haf : l.actualFile = some fw)
    (hbuf : fw.buf = some bs) (hig : l.ignorer = none)
    (hperm : (stripTrailingEmpty ((splitNl bs.data).map String.mk)).Perm l.truth)
    (hwf : ∀ t ∈ l.truth, ¬ t.data.length < 6 ∧
      (unmarshalMapSlice (t.data.drop 6)).isSome = true) :
    compareFinalSortedLogs l = Except.ok (l, []) := by
  have hSS : sortStrings (stripTrailingEmpty ((splitNl bs.data).map String.mk)) =
      sortStrings l.truth := sortStrings_perm_eq _ _ hperm
  have hall : ∀ p ∈ (sortStrings l.truth).zip (sortStrings l.truth),
      pairCmp l.ignorer p.1 p.2 = Except.ok true := by
    intro p hp
    obtain ⟨hpe, hpm⟩ := zip_same_mem (sortStrings l.truth) p hp
    have hmem : p.1 ∈ l.truth := (List.perm_insertionSort strLeProp l.truth).subset hpm
    obtain ⟨hl6, hums⟩ := hwf p.1 hmem
    rw [hig]
    unfold pairCmp
    rw [← hpe]
    rw [if_neg hl6]
    cases hum : unmarshalMapSlice (p.1.data.drop 6) with
    | none =>
      rw [hum] at hums
      simp at hums
    | some gm =>
      dsimp only
      simp [cmpL]
  have hfl := finalLoop_ok_of_all_true l.ignorer _ hall
  unfold compareFinalSortedLogs
  rw [if_neg (by simp [htp])]
  rw [haf]
  dsimp only
  rw [hbuf]
  dsimp only
  rw [hSS]
  rw [if_neg (not_not_intro rfl)]
  rw [hfl]
  dsimp only
  rw [Bool.or_false, ← haf]

/-- C4: in order-insensitive mode no per-call comparison occurs (compare
leaves the cursor and the failed flag untouched and reports no diff); at
finalization both the expected list and the accumulated actual lines
(trailing empty line stripped) are sorted, and when the lengths differ
exactly one aggregate count diff holding both full sorted lists is
reported and failed is set, with no per-line diffs; with equal lengths
every sorted position is compared with the cmp rule and every rejected
pair is reported, in order and without short-circuiting (duplicates kept
by position), the failed flag becoming the old flag or-ed with whether any
pair was rejected; and with no field-ignore function configured and every
expected line parseable, actual lines forming a permutation of exactly the
expected lines yield no report and an unchanged state — in particular
failed stays false. -/
theorem C4_order_insensitive_finalization :
    (∀ l lvl kv r, l.ignoreOrder = true → Logger.compare l lvl kv = Except.ok r →
      r.1.cur = l.cur ∧ r.1.failed = l.failed ∧ diffCount r.2 = 0)
    ∧ (∀ (l : LoggerState) fw bs, l.truthProvided = true → l.actualFile = some fw →
        fw.buf = some bs →
        (sortStrings l.truth).length ≠
          (sortStrings (stripTrailingEmpty ((splitNl bs.data).map String.mk))).length →
        compareFinalSortedLogs l = Except.ok ({ l with failed := true },
          [Event.runnerLog [countMsgTag, replaceNbsp (cmpDiffList (sortStrings l.truth)
            (sortStrings (stripTrailingEmpty ((splitNl bs.data).map String.mk))))]]))
    ∧ (∀ (l : LoggerState) fw bs r, l.truthProvided = true → l.actualFile = some fw →
        fw.buf = some bs →
        (sortStrings l.truth).length =
          (sortStrings (stripTrailingEmpty ((splitNl bs.data).map String.mk))).length →
        compareFinalSortedLogs l = Except.ok r →
        r.2 = (((sortStrings l.truth).zip
            (sortStrings (stripTrailingEmpty ((splitNl bs.data).map String.mk)))).filter
            (badPair l.ignorer)).map pairDiffEvent
          ∧ r.1.failed = (l.failed || ((sortStrings l.truth).zip
              (sortStrings (stripTrailingEmpty ((splitNl bs.data).map String.mk)))).any
              (badPair l.ignorer)))
    ∧ (∀ (l : LoggerState) fw bs, l.truthProvided = true → l.actualFile = some fw →
        fw.buf = some bs → l.ignorer = none →
        (stripTrailingEmpty ((splitNl bs.data).map String.mk)).Perm l.truth →
        (∀ t ∈ l.truth, ¬ t.data.length < 6 ∧
          (unmarshalMapSlice (t.data.drop 6)).isSome = true) →
        compareFinalSortedLogs l = Except.ok (l, [])) :=
  ⟨fun l lvl kv r => compare_ignoreOrder_skip l lvl kv r,
   fun l fw bs => cfsl_count_mismatch l fw bs,
   fun l fw bs r => cfsl_equal_length l fw bs r,
   fun l fw bs => cfsl_perm_no_ignorer l fw bs⟩

/-- The two expected lines of the C4 witness scenario. -/
def c4LineA : String := "debug \x7b\"a\":1\x7d"

/-- The second expected line of the C4 witness scenario. -/
def c4LineB : String := "info  \x7b\"b\":2\x7d"

/-- The buffered actual output of the C4 witness scenario: the two
expected lines in the opposite order. -/
def c4Buf : String := c4LineB ++ "\n" ++ c4LineA ++ "\n"

/-- An order-insensitive engine (no field-ignore function) whose buffered
actual lines are the two expected lines swapped. -/
def c4PermLogger : LoggerState :=
  { truth := [c4LineA, c4LineB]
    cur := 0
    truthProvided := true
    ignoreOrder := true
    doFail := true
    failed := false
    actualFile := some { path := "out.txt", buf := some c4Buf, file := none }
    actualFileOverride := false
    ignorer := none }

/-- Witness for C4: on a concrete order-insensitive engine whose actual
lines are a non-identity permutation of its two expected lines,
finalization reports nothing and leaves the state (failed = false)
unchanged. -/
theorem C4_order_insensitive_finalization_witness :
    c4PermLogger.ignoreOrder = true
    ∧ stripTrailingEmpty ((splitNl c4Buf.data).map String.mk) = [c4LineB, c4LineA]
    ∧ compareFinalSortedLogs c4PermLogger = Except.ok (c4PermLogger, []) :=
  ⟨rfl, rfl,
   C4_order_insensitive_finalization.2.2.2 c4PermLogger
     { path := "out.txt", buf := some c4Buf, file := none } c4Buf
     rfl rfl rfl rfl
     (by rw [show stripTrailingEmpty ((splitNl c4Buf.data).map String.mk) =
           [c4LineB, c4LineA] from rfl]
         exact List.Perm.swap c4LineA c4LineB [])
     (by decide)⟩

/-- The expected line of the C4 counterexample: its single field value is
the JSON boolean true. -/
def c4CexLine : String := "info  \x7b\"k\":true\x7d"

/-- An order-insensitive engine with a field-ignore function configured
(one that exempts nothing) whose single buffered actual line is
byte-identical to its single expected line. -/
def c4CexLogger : LoggerState :=
  { truth := [c4CexLine]
    cur := 0
    truthProvided := true
    ignoreOrder := true
    doFail := true
    failed := false
    actualFile := some { path := "out.txt", buf := some (c4CexLine ++ "\n"), file := none }
    actualFileOverride := false
    ignorer := some (fun _ => []) }

/-- C4 counterexample: the claim promises that any permutation of exactly
the expected lines yields failed = false, but with a field-ignore function
configured the cmp rule canonicalizes the actual line's field value to the
string "true" and compares it by interface equality against the
unmarshalled JSON boolean of the expected line, which fails — so even the
identity permutation of a single boolean-valued line is rejected:
finalization reports a per-line diff and sets failed. -/
theorem C4_counterexample :
    stripTrailingEmpty ((splitNl (c4CexLine ++ "\n").data).map String.mk) = c4CexLogger.truth
    ∧ c4CexLogger.failed = false
    ∧ compareFinalSortedLogs c4CexLogger = Except.ok ({ c4CexLogger with failed := true },
        [Event.runnerLog [unexpectedMsgTag, replaceNbsp (cmpDiff c4CexLine c4CexLine)]]) :=
  ⟨rfl, rfl, rfl⟩

/-! ## C6: the JSON round trip -/

/-- Characters are determined by their code points. -/
theorem char_toNat_inj (c d : Char) (h : c.toNat = d.toNat) : c = d := by
  have hval : c.val.toNat = d.val.toNat := h
  exact Char.ext (UInt32.ext hval)

/-- Scanning a valid single-character escape. -/
theorem parseStrChars_escape (e ec : Char) (L : List Char)
    (he : unescapeChar e = some ec) (hne : e ≠ 'u') :
    parseStrChars ('\\' :: e :: L) =
      match parseStrChars L with
      | none => none
      | some (out, r) => some (ec :: out, r) := by
  conv_lhs => rw [parseStrChars.eq_def]
  dsimp only
  rw [if_neg (by decide), if_pos rfl]
  rw [if_neg hne, he]

/-- Scanning an invalid single-character escape fails. -/
theorem parseStrChars_bad_escape (e : Char) (L : List Char)
    (he : unescapeChar e = none) (hne : e ≠ 'u') :
    parseStrChars ('\\' :: e :: L) = none := by
  conv_lhs => rw [parseStrChars.eq_def]
  dsimp only
  rw [if_neg (by decide), if_pos rfl]
  rw [if_neg hne, he]

/-- Scanning a \uXXXX escape. -/
theorem parseStrChars_u (h1 h2 h3 h4 : Char) (n : Nat) (L : List Char)
    (hh : hex4 h1 h2 h3 h4 = some n) :
    parseStrChars ('\\' :: 'u' :: h1 :: h2 :: h3 :: h4 :: L) =
      match parseStrChars L with
      | none => none
      | some (out, r) => some (Char.ofNat n :: out, r) := by
  conv_lhs => rw [parseStrChars.eq_def]
  dsimp only
  rw [if_neg (by decide), if_pos rfl]
  rw [if_pos rfl]
  rw [hh]

/-- Scanning an unescaped non-control character. -/
theorem parseStrChars_plain (c : Char) (L : List Char)
    (h1 : c ≠ '"') (h2 : c ≠ '\\') (h3 : ¬ c.toNat < 32) :
    parseStrChars (c :: L) =
      match parseStrChars L with
      | none => none
      | some (out, r) => some (c :: out, r) := by
  conv_lhs => rw [parseStrChars.eq_def]
  dsimp only
  rw [if_neg h1, if_neg h2, if_neg h3]

/-- hexVal inverts hexDigitChar below 16. -/
theorem hexVal_hexDigitChar : ∀ d, d < 16 → hexVal (hexDigitChar d) = some d := by decide

/-- hex4 on 00 plus the two hex digits of a byte below 32 recovers the
byte. -/
theorem hex4_byte (n : Nat) (h : n < 32) :
    hex4 '0' '0' (hexDigitChar (n / 16)) (hexDigitChar (n % 16)) = some n := by
  unfold hex4
  rw [show hexVal '0' = some 0 from rfl]
  rw [hexVal_hexDigitChar (n / 16) (by omega), hexVal_hexDigitChar (n % 16) (by omega)]
  dsimp only
  congr 1
  omega

/-- Every escape produced by the encoding/json value escaper scans back to
the original characters. -/
theorem parseStrChars_jsonEscape (rest : List Char) :
    ∀ cs : List Char,
      parseStrChars (cs.flatMap jsonEscapeChar ++ '"' :: rest) = some (cs, rest) := by
  intro cs
  induction cs with
  | nil =>
    have h : parseStrChars ('"' :: rest) = some ([], rest) := by
      conv_lhs => rw [parseStrChars.eq_def]
      dsimp only
      rw [if_pos rfl]
    exact h
  | cons c cs ih =>
    have hstep : (c :: cs).flatMap jsonEscapeChar ++ '"' :: rest =
        jsonEscapeChar c ++ (cs.flatMap jsonEscapeChar ++ '"' :: rest) := by
      rw [List.flatMap_cons, List.append_assoc]
    rw [hstep]
    rw [jsonEscapeChar.eq_def]
    split_ifs with hq hb hn hr ht h32 hlt hgt hamp
    · subst hq
      simp only [List.cons_append, List.nil_append]
      rw [parseStrChars_escape '"' '"' _ (by decide) (by decide), ih]
    · subst hb
      simp only [List.cons_append, List.nil_append]
      rw [parseStrChars_escape '\\' '\\' _ (by decide) (by decide), ih]
    · subst hn
      simp only [List.cons_append, List.nil_append]
      rw [parseStrChars_escape 'n' '\n' _ (by decide) (by decide), ih]
    · subst hr
      simp only [List.cons_append, List.nil_append]
      rw [parseStrChars_escape 'r' '\r' _ (by decide) (by decide), ih]
    · subst ht
      simp only [List.cons_append, List.nil_append]
      rw [parseStrChars_escape 't' '\t' _ (by decide) (by decide), ih]
    · simp only [List.cons_append, List.nil_append]
      rw [parseStrChars_u '0' '0' (hexDigitChar (c.toNat / 16)) (hexDigitChar (c.toNat % 16))
        c.toNat _ (hex4_byte c.toNat h32), ih]
      rw [Char.ofNat_toNat]
    · subst hlt
      simp only [List.cons_append, List.nil_append]
      rw [parseStrChars_u '0' '0' '3' 'c' 60 _ (by decide), ih]
    · subst hgt
      simp only [List.cons_append, List.nil_append]
      rw [parseStrChars_u '0' '0' '3' 'e' 62 _ (by decide), ih]
    · subst hamp
      simp only [List.cons_append, List.nil_append]
      rw [parseStrChars_u '0' '0' '2' '6' 38 _ (by decide), ih]
    · simp only [List.cons_append, List.nil_append]
      rw [parseStrChars_plain c _ hq hb h32, ih]

/-- The common step of the %q-scan inversion: a successful scan of one
decoded character followed by the rest of the body. -/
theorem parseStrChars_goQuote_step (ec : Char) (cs rest : List Char)
    (p : List Char × List Char)
    (hih : ∀ q, parseStrChars (cs.flatMap goQuoteChar ++ '"' :: rest) = some q →
      q = (cs, rest) ∧ ∀ c ∈ cs, goodQuoteChar c = true)
    (hgood : goodQuoteChar ec = true)
    (h : (match parseStrChars (cs.flatMap goQuoteChar ++ '"' :: rest) with
          | none => none
          | some (out, r) => some (ec :: out, r)) = some p) :
    p = (ec :: cs, rest) ∧ ∀ c ∈ ec :: cs, goodQuoteChar c = true := by
  cases hps : parseStrChars (cs.flatMap goQuoteChar ++ '"' :: rest) with
  | none =>
    rw [hps] at h
    cases h
  | some q =>
    obtain ⟨out, r⟩ := q
    rw [hps] at h
    dsimp only at h
    injection h with h2
    obtain ⟨hpe, hgd⟩ := hih (out, r) hps
    injection hpe with ho1 ho2
    subst ho1
    subst ho2
    refine ⟨h2.symm, ?_⟩
    intro x hx
    rcases List.mem_cons.mp hx with h3 | h3
    · subst h3
      exact hgood
    · exact hgd x h3


/-- Inversion of scanning a %q-quoted string body: success forces the
decoded output to be the original body (with the expected remainder) and
every body character to be in the JSON-surviving class. -/
theorem parseStrChars_goQuote_inv :
    ∀ (cs rest : List Char) (p : List Char × List Char),
      parseStrChars (cs.flatMap goQuoteChar ++ '"' :: rest) = some p →
      p = (cs, rest) ∧ ∀ c ∈ cs, goodQuoteChar c = true := by
  intro cs
  induction cs with
  | nil =>
    intro rest p h
    have h' : parseStrChars ('"' :: rest) = some p := h
    rw [show parseStrChars ('"' :: rest) = some ([], rest) from by
      conv_lhs => rw [parseStrChars.eq_def]
      dsimp only
      rw [if_pos rfl]] at h'
    injection h' with h2
    refine ⟨h2.symm, ?_⟩
    intro c hc
    cases hc
  | cons c cs ih =>
    intro rest p h
    have hstep : (c :: cs).flatMap goQuoteChar ++ '"' :: rest =
        goQuoteChar c ++ (cs.flatMap goQuoteChar ++ '"' :: rest) := by
      rw [List.flatMap_cons, List.append_assoc]
    rw [hstep] at h
    by_cases hq : c = '"'
    · subst hq
      rw [show goQuoteChar '"' = ['\\', '"'] from rfl] at h
      simp only [List.cons_append, List.nil_append] at h
      rw [parseStrChars_escape '"' '"' _ (by decide) (by decide)] at h
      exact parseStrChars_goQuote_step '"' cs rest p (fun q => ih rest q) (by decide) h
    by_cases hb : c = '\\'
    · subst hb
      rw [show goQuoteChar '\\' = ['\\', '\\'] from rfl] at h
      simp only [List.cons_append, List.nil_append] at h
      rw [parseStrChars_escape '\\' '\\' _ (by decide) (by decide)] at h
      exact parseStrChars_goQuote_step '\\' cs rest p (fun q => ih rest q) (by decide) h
    by_cases hn : c = '\n'
    · subst hn
      rw [show goQuoteChar '\n' = ['\\', 'n'] from rfl] at h
      simp only [List.cons_append, List.nil_append] at h
      rw [parseStrChars_escape 'n' '\n' _ (by decide) (by decide)] at h
      exact parseStrChars_goQuote_step '\n' cs rest p (fun q => ih rest q) (by decide) h
    by_cases ht : c = '\t'
    · subst ht
      rw [show goQuoteChar '\t' = ['\\', 't'] from rfl] at h
      simp only [List.cons_append, List.nil_append] at h
      rw [parseStrChars_escape 't' '\t' _ (by decide) (by decide)] at h
      exact parseStrChars_goQuote_step '\t' cs rest p (fun q => ih rest q) (by decide) h
    by_cases hr : c = '\r'
    · subst hr
      rw [show goQuoteChar '\r' = ['\\', 'r'] from rfl] at h
      simp only [List.cons_append, List.nil_append] at h
      rw [parseStrChars_escape 'r' '\r' _ (by decide) (by decide)] at h
      exact parseStrChars_goQuote_step '\r' cs rest p (fun q => ih rest q) (by decide) h
    by_cases h8 : c.toNat = 8
    · have hc8 : c = Char.ofNat 8 := char_toNat_inj c (Char.ofNat 8) (by rw [h8]; decide)
      subst hc8
      rw [show goQuoteChar (Char.ofNat 8) = ['\\', 'b'] from by decide] at h
      simp only [List.cons_append, List.nil_append] at h
      rw [parseStrChars_escape 'b' (Char.ofNat 8) _ (by decide) (by decide)] at h
      exact parseStrChars_goQuote_step (Char.ofNat 8) cs rest p (fun q => ih rest q)
        (by decide) h
    by_cases h12 : c.toNat = 12
    · have hc12 : c = Char.ofNat 12 := char_toNat_inj c (Char.ofNat 12) (by rw [h12]; decide)
      subst hc12
      rw [show goQuoteChar (Char.ofNat 12) = ['\\', 'f'] from by decide] at h
      simp only [List.cons_append, List.nil_append] at h
      rw [parseStrChars_escape 'f' (Char.ofNat 12) _ (by decide) (by decide)] at h
      exact parseStrChars_goQuote_step (Char.ofNat 12) cs rest p (fun q => ih rest q)
        (by decide) h
    by_cases h7 : c.toNat = 7
    · have hc7 : c = Char.ofNat 7 := char_toNat_inj c (Char.ofNat 7) (by rw [h7]; decide)
      subst hc7
      rw [show goQuoteChar (Char.ofNat 7) = ['\\', 'a'] from by decide] at h
      simp only [List.cons_append, List.nil_append] at h
      rw [parseStrChars_bad_escape 'a' _ (by decide) (by decide)] at h
      cases h
    by_cases h11 : c.toNat = 11
    · have hc11 : c = Char.ofNat 11 := char_toNat_inj c (Char.ofNat 11) (by rw [h11]; decide)
      subst hc11
      rw [show goQuoteChar (Char.ofNat 11) = ['\\', 'v'] from by decide] at h
      simp only [List.cons_append, List.nil_append] at h
      rw [parseStrChars_bad_escape 'v' _ (by decide) (by decide)] at h
      cases h
    by_cases h32 : c.toNat < 32
    · have hgq : goQuoteChar c =
          ['\\', 'x', hexDigitChar (c.toNat / 16), hexDigitChar (c.toNat % 16)] := by
        rw [goQuoteChar.eq_def, if_neg hq, if_neg hb, if_neg hn, if_neg ht, if_neg hr,
          if_neg h8, if_neg h12, if_neg h7, if_neg h11, if_pos h32]
      rw [hgq] at h
      simp only [List.cons_append, List.nil_append] at h
      rw [parseStrChars_bad_escape 'x' _ (by decide) (by decide)] at h
      cases h
    have hgq : goQuoteChar c = [c] := by
      rw [goQuoteChar.eq_def, if_neg hq, if_neg hb, if_neg hn, if_neg ht, if_neg hr,
        if_neg h8, if_neg h12, if_neg h7, if_neg h11, if_neg h32]
    rw [hgq] at h
    simp only [List.cons_append, List.nil_append] at h
    rw [parseStrChars_plain c _ hq hb h32] at h
    have hgood : goodQuoteChar c = true := by
      have h32' : 32 ≤ c.toNat := by omega
      simp [goodQuoteChar, h32']
    exact parseStrChars_goQuote_step c cs rest p (fun q => ih rest q) hgood h

/-- Scanning the %q quoting of a string body whose characters all survive
JSON scanning recovers the body, for any continuation. -/
theorem parseStrChars_goQuote_fwd :
    ∀ (cs rest : List Char),
      (∀ c ∈ cs, goodQuoteChar c = true) →
      parseStrChars (cs.flatMap goQuoteChar ++ '"' :: rest) = some (cs, rest) := by
  intro cs
  induction cs with
  | nil =>
    intro rest _
    exact (show parseStrChars ('"' :: rest) = some ([], rest) from by
      conv_lhs => rw [parseStrChars.eq_def]
      dsimp only
      rw [if_pos rfl])
  | cons c cs ih =>
    intro rest hgood
    have htail : ∀ x ∈ cs, goodQuoteChar x = true :=
      fun x hx => hgood x (List.mem_cons_of_mem _ hx)
    have hhd : goodQuoteChar c = true := hgood c (List.mem_cons_self _ _)
    have hstep : (c :: cs).flatMap goQuoteChar ++ '"' :: rest =
        goQuoteChar c ++ (cs.flatMap goQuoteChar ++ '"' :: rest) := by
      rw [List.flatMap_cons, List.append_assoc]
    rw [hstep]
    by_cases hq : c = '"'
    · subst hq
      rw [show goQuoteChar '"' = ['\\', '"'] from rfl]
      simp only [List.cons_append, List.nil_append]
      rw [parseStrChars_escape '"' '"' _ (by decide) (by decide), ih rest htail]
    by_cases hb : c = '\\'
    · subst hb
      rw [show goQuoteChar '\\' = ['\\', '\\'] from rfl]
      simp only [List.cons_append, List.nil_append]
      rw [parseStrChars_escape '\\' '\\' _ (by decide) (by decide), ih rest htail]
    by_cases hn : c = '\n'
    · subst hn
      rw [show goQuoteChar '\n' = ['\\', 'n'] from rfl]
      simp only [List.cons_append, List.nil_append]
      rw [parseStrChars_escape 'n' '\n' _ (by decide) (by decide), ih rest htail]
    by_cases ht : c = '\t'
    · subst ht
      rw [show goQuoteChar '\t' = ['\\', 't'] from rfl]
      simp only [List.cons_append, List.nil_append]
      rw [parseStrChars_escape 't' '\t' _ (by decide) (by decide), ih rest htail]
    by_cases hr : c = '\r'
    · subst hr
      rw [show goQuoteChar '\r' = ['\\', 'r'] from rfl]
      simp only [List.cons_append, List.nil_append]
      rw [parseStrChars_escape 'r' '\r' _ (by decide) (by decide), ih rest htail]
    by_cases h8 : c.toNat = 8
    · have hc8 : c = Char.ofNat 8 := char_toNat_inj c (Char.ofNat 8) (by rw [h8]; decide)
      subst hc8
      rw [show goQuoteChar (Char.ofNat 8) = ['\\', 'b'] from by decide]
      simp only [List.cons_append, List.nil_append]
      rw [parseStrChars_escape 'b' (Char.ofNat 8) _ (by decide) (by decide), ih rest htail]
    by_cases h12 : c.toNat = 12
    · have hc12 : c = Char.ofNat 12 := char_toNat_inj c (Char.ofNat 12) (by rw [h12]; decide)
      subst hc12
      rw [show goQuoteChar (Char.ofNat 12) = ['\\', 'f'] from by decide]
      simp only [List.cons_append, List.nil_append]
      rw [parseStrChars_escape 'f' (Char.ofNat 12) _ (by decide) (by decide), ih rest htail]
    by_cases h7 : c.toNat = 7
    · exfalso
      have hc7 : c = Char.ofNat 7 := char_toNat_inj c (Char.ofNat 7) (by rw [h7]; decide)
      subst hc7
      rw [show goodQuoteChar (Char.ofNat 7) = false from by decide] at hhd
      cases hhd
    by_cases h11 : c.toNat = 11
    · exfalso
      have hc11 : c = Char.ofNat 11 := char_toNat_inj c (Char.ofNat 11) (by rw [h11]; decide)
      subst hc11
      rw [show goodQuoteChar (Char.ofNat 11) = false from by decide] at hhd
      cases hhd
    by_cases h32 : c.toNat < 32
    · exfalso
      have h32' : ¬ 32 ≤ c.toNat := by omega
      simp [goodQuoteChar, h32', h8, hn, ht, h12, hr] at hhd
    have hgq : goQuoteChar c = [c] := by
      rw [goQuoteChar.eq_def, if_neg hq, if_neg hb, if_neg hn, if_neg ht, if_neg hr,
        if_neg h8, if_neg h12, if_neg h7, if_neg h11, if_neg h32]
    rw [hgq]
    simp only [List.cons_append, List.nil_append]
    rw [parseStrChars_plain c _ hq hb h32, ih rest htail]

/-- Facts about decimal digit characters below ten. -/
theorem digitChar_facts : ∀ r, r < 10 →
    (digitChar r).isDigit = true ∧ isJsonWs (digitChar r) = false ∧
      (digitChar r).toNat - 48 = r := by decide

/-- digitsVal over a final digit. -/
theorem digitsVal_concat (acc : Nat) (xs : List Char) (d : Char) :
    digitsVal acc (xs ++ [d]) = digitsVal acc xs * 10 + (d.toNat - 48) := by
  unfold digitsVal
  rw [List.foldl_append]
  rfl

/-- Every character produced by natToRevDigits is a decimal digit
character. -/
theorem natToRevDigits_shape :
    ∀ m c, c ∈ natToRevDigits m → ∃ r, r < 10 ∧ c = digitChar r := by
  intro m
  induction m using Nat.strong_induction_on with
  | _ m ih =>
    intro c hc
    cases m with
    | zero =>
      rw [natToRevDigits] at hc
      cases hc
    | succ n =>
      rw [natToRevDigits] at hc
      rcases List.mem_cons.mp hc with h1 | h1
      · exact ⟨(n + 1) % 10, Nat.mod_lt _ (by omega), h1⟩
      · exact ih ((n + 1) / 10) (Nat.div_lt_self (by omega) (by omega)) c h1

/-- natToRevDigits vanishes only at zero. -/
theorem natToRevDigits_nil (m : Nat) (h : natToRevDigits m = []) : m = 0 := by
  cases m with
  | zero => rfl
  | succ n =>
    rw [natToRevDigits] at h
    cases h

/-- natRepr produces digit characters only. -/
theorem natRepr_shape (m : Nat) :
    ∀ c ∈ natRepr m, ∃ r, r < 10 ∧ c = digitChar r := by
  intro c hc
  unfold natRepr at hc
  split at hc
  · rw [List.mem_singleton] at hc
    exact ⟨0, by omega, by rw [hc]; rfl⟩
  · exact natToRevDigits_shape m c (List.mem_reverse.mp hc)

/-- natRepr is never empty. -/
theorem natRepr_ne_nil (m : Nat) : natRepr m ≠ [] := by
  unfold natRepr
  split
  · intro hc
    cases hc
  · next hm =>
    intro hc
    have h2 : natToRevDigits m = [] := by
      have h3 := congrArg List.reverse hc
      simpa using h3
    exact hm (natToRevDigits_nil m h2)

/-- The decimal digits of m evaluate back to m. -/
theorem digitsVal_rev (m : Nat) :
    ∀ acc, digitsVal acc (natToRevDigits m).reverse =
      acc * 10 ^ (natToRevDigits m).length + m := by
  induction m using Nat.strong_induction_on with
  | _ m ih =>
    cases m with
    | zero =>
      intro acc
      rw [natToRevDigits]
      simp [digitsVal]
    | succ n =>
      intro acc
      rw [natToRevDigits]
      rw [List.reverse_cons]
      rw [digitsVal_concat]
      rw [ih ((n + 1) / 10) (Nat.div_lt_self (by omega) (by omega)) acc]
      rw [(digitChar_facts ((n + 1) % 10) (Nat.mod_lt _ (by omega))).2.2]
      rw [List.length_cons, pow_succ, ← Nat.mul_assoc]
      generalize acc * 10 ^ (natToRevDigits ((n + 1) / 10)).length = A
      omega

/-- The decimal value of natRepr. -/
theorem natRepr_val (m : Nat) : digitsVal 0 (natRepr m) = m := by
  unfold natRepr
  split
  · next hm =>
    subst hm
    rfl
  · rw [digitsVal_rev m 0]
    simp

/-- Consuming a run of digit characters followed by a non-digit. -/
theorem parseDigitsAux_digits (rest : List Char)
    (hnd : ∀ c cs2, rest = c :: cs2 → c.isDigit = false) :
    ∀ (ds : List Char) (acc : Nat), (∀ c ∈ ds, c.isDigit = true) →
      parseDigitsAux acc (ds ++ rest) = (digitsVal acc ds, rest) := by
  intro ds
  induction ds with
  | nil =>
    intro acc _
    show parseDigitsAux acc rest = (acc, rest)
    cases hr : rest with
    | nil => rfl
    | cons c cs2 =>
      rw [parseDigitsAux.eq_def]
      dsimp only
      simp only [hnd c cs2 hr, Bool.false_eq_true, if_false]
  | cons d ds2 ihd =>
    intro acc hds
    have hd := hds d (List.mem_cons_self _ _)
    simp only [List.cons_append]
    rw [parseDigitsAux.eq_def]
    dsimp only
    rw [if_pos hd]
    rw [ihd (acc * 10 + (d.toNat - 48)) (fun c hc => hds c (List.mem_cons_of_mem _ hc))]
    rfl

/-- Parsing the decimal rendering of a natural number followed by a
non-digit recovers the number. -/
theorem parseNat1_natRepr (m : Nat) (rest : List Char)
    (hnd : ∀ c cs2, rest = c :: cs2 → c.isDigit = false) :
    parseNat1 (natRepr m ++ rest) = some (m, rest) := by
  have hdig : ∀ c ∈ natRepr m, c.isDigit = true := by
    intro c hc
    obtain ⟨r, hr, hcr⟩ := natRepr_shape m c hc
    rw [hcr]
    exact (digitChar_facts r hr).1
  cases hnr : natRepr m with
  | nil => exact absurd hnr (natRepr_ne_nil m)
  | cons d ds =>
    have hd : d.isDigit = true := by
      apply hdig
      rw [hnr]
      exact List.mem_cons_self _ _
    simp only [List.cons_append]
    rw [parseNat1.eq_def]
    dsimp only
    rw [if_pos hd]
    rw [parseDigitsAux_digits rest hnd ds (d.toNat - 48)
      (fun c hc => hdig c (by rw [hnr]; exact List.mem_cons_of_mem _ hc))]
    have h0 : digitsVal 0 (d :: ds) = digitsVal (0 * 10 + (d.toNat - 48)) ds := rfl
    have h1 : 0 * 10 + (d.toNat - 48) = d.toNat - 48 := by omega
    have hv : digitsVal (d.toNat - 48) ds = m := by
      rw [← h1, ← h0, ← hnr, natRepr_val]
    rw [hv]

/-- skipWs does not consume a non-whitespace head. -/
theorem skipWs_cons_neg (c : Char) (l : List Char) (h : isJsonWs c = false) :
    skipWs (c :: l) = c :: l := by
  rw [skipWs.eq_def]
  dsimp only
  simp only [h, Bool.false_eq_true, if_false]

/-- A rendered scalar value never starts with whitespace. -/
theorem skipWs_serializeJ (j : JValue) (X : List Char) :
    skipWs (serializeJ j ++ X) = serializeJ j ++ X := by
  cases j with
  | jnull => rfl
  | jbool b => cases b <;> rfl
  | jstr s => rfl
  | jnum n =>
    cases n with
    | ofNat m =>
      show skipWs (natRepr m ++ X) = natRepr m ++ X
      cases hnr : natRepr m with
      | nil => exact absurd hnr (natRepr_ne_nil m)
      | cons d ds =>
        obtain ⟨r, hr, hdr⟩ := natRepr_shape m d (by rw [hnr]; exact List.mem_cons_self _ _)
        simp only [List.cons_append]
        apply skipWs_cons_neg
        rw [hdr]
        exact (digitChar_facts r hr).2.1
    | negSucc m => rfl

/-- Digit characters are none of the dispatch literals of the scalar
scanner. -/
theorem digitChar_not_lits : ∀ r, r < 10 →
    digitChar r ≠ '"' ∧ digitChar r ≠ 't' ∧ digitChar r ≠ 'f' ∧
      digitChar r ≠ 'n' ∧ digitChar r ≠ '-' := by decide

/-- A successfully marshalled value is the serialization of its JSON
denotation. -/
theorem marshalValue_serializeJ (v : GoValue) (vb : List Char)
    (h : marshalValue v = Except.ok vb) : vb = serializeJ (toJ v) := by
  cases v with
  | str s =>
    injection h with h2
    rw [← h2]
    rfl
  | jsonM j =>
    injection h with h2
    rw [← h2]
    rfl
  | jsonMErr m => cases h
  | textM s =>
    injection h with h2
    rw [← h2]
    rfl
  | pbool b =>
    injection h with h2
    rw [← h2]
    rfl
  | pnum n =>
    injection h with h2
    rw [← h2]
    rfl
  | pnull =>
    injection h with h2
    rw [← h2]
    rfl

/-- Parsing a serialized scalar followed by a non-digit remainder recovers
the scalar. -/
theorem parseJValue_serialize (j : JValue) (rest : List Char)
    (hnd : ∀ c cs2, rest = c :: cs2 → c.isDigit = false) :
    parseJValue (serializeJ j ++ rest) = some (j, rest) := by
  cases j with
  | jnull => rfl
  | jbool b => cases b <;> rfl
  | jstr s =>
    show parseJValue (('"' :: (s.data.flatMap jsonEscapeChar ++ ['"'])) ++ rest) = _
    simp only [List.cons_append, List.append_assoc, List.singleton_append, List.nil_append]
    rw [parseJValue.eq_def]
    dsimp only
    rw [if_pos rfl]
    rw [parseStrChars_jsonEscape rest s.data]
    rfl
  | jnum n =>
    cases n with
    | ofNat m =>
      show parseJValue (natRepr m ++ rest) = some (JValue.jnum (Int.ofNat m), rest)
      cases hnr : natRepr m with
      | nil => exact absurd hnr (natRepr_ne_nil m)
      | cons d ds =>
        obtain ⟨r, hr, hdr⟩ := natRepr_shape m d (by rw [hnr]; exact List.mem_cons_self _ _)
        subst hdr
        have hlits := digitChar_not_lits r hr
        simp only [List.cons_append]
        rw [parseJValue.eq_def]
        dsimp only
        rw [if_neg hlits.1, if_neg hlits.2.1, if_neg hlits.2.2.1, if_neg hlits.2.2.2.1,
          if_neg hlits.2.2.2.2, if_pos (digitChar_facts r hr).1]
        rw [show digitChar r :: (ds ++ rest) = natRepr m ++ rest from by
          rw [hnr, List.cons_append]]
        rw [parseNat1_natRepr m rest hnd]
        rfl
    | negSucc m =>
      show parseJValue ('-' :: (natRepr (m + 1) ++ rest)) = _
      rw [parseJValue.eq_def]
      dsimp only
      rw [if_neg (by decide), if_neg (by decide), if_neg (by decide), if_neg (by decide),
        if_pos rfl]
      rw [parseNat1_natRepr (m + 1) rest hnd]
      have hneg : -((m + 1 : Nat) : Int) = Int.negSucc m := by
        rw [Int.negSucc_eq]
        push_cast
        ring
      simp only [Option.map]
      rw [hneg]

/-- Structure of the serialized body of a nonempty MapSlice. -/
theorem serItems_shape (it : MapItem) (rest : MapSlice) (body : List Char)
    (h : serItems (it :: rest) = Except.ok body) :
    ∃ vb, marshalValue it.value = Except.ok vb ∧
      ((rest = [] ∧ body = goQuote it.key ++ ':' :: vb) ∨
       (∃ tail, serItems rest = Except.ok tail ∧ rest ≠ [] ∧
         body = goQuote it.key ++ ':' :: vb ++ ',' :: tail)) := by
  cases rest with
  | nil =>
    rw [serItems.eq_def] at h
    dsimp only at h
    cases hmv : marshalValue it.value with
    | error e =>
      rw [hmv] at h
      cases h
    | ok vb =>
      rw [hmv] at h
      dsimp only at h
      injection h with h2
      exact ⟨vb, rfl, Or.inl ⟨rfl, h2.symm⟩⟩
  | cons it2 rest2 =>
    rw [serItems.eq_def] at h
    dsimp only at h
    cases hmv : marshalValue it.value with
    | error e =>
      rw [hmv] at h
      cases h
    | ok vb =>
      rw [hmv] at h
      dsimp only at h
      cases hsi : serItems (it2 :: rest2) with
      | error e =>
        rw [hsi] at h
        cases h
      | ok tail =>
        rw [hsi] at h
        dsimp only at h
        injection h with h2
        refine ⟨vb, rfl, Or.inr ⟨tail, rfl, ?_, h2.symm⟩⟩
        intro hc
        cases hc

/-- The body is at least as long as the item list. -/
theorem serItems_length : ∀ (ms : MapSlice) (body : List Char),
    serItems ms = Except.ok body → ms.length ≤ body.length := by
  intro ms
  induction ms with
  | nil =>
    intro body h
    injection h with h2
    rw [← h2]
    simp
  | cons it rest ih =>
    intro body h
    obtain ⟨vb, hmv, hcase⟩ := serItems_shape it rest body h
    rcases hcase with ⟨hnil, hbody⟩ | ⟨tail, hsi, hne, hbody⟩
    · subst hnil
      rw [hbody]
      simp only [goQuote, List.length_cons, List.length_append, List.cons_append,
        List.length_nil]
      omega
    · have hlen := ih tail hsi
      rw [hbody]
      simp only [goQuote, List.length_cons, List.length_append, List.cons_append,
        List.length_nil]
      omega

/-- Success of the field scanner on a rendered body forces every key
character into the JSON-surviving class. -/
theorem parseFieldsAux_goodKeys :
    ∀ (ms : MapSlice) (body : List Char), serItems ms = Except.ok body →
      ∀ (fuel : Nat) (tail0 : List Char) (res : List (String × JValue) × List Char),
        parseFieldsAux fuel (body ++ '}' :: tail0) = some res →
        AllKeysGood ms := by
  intro ms
  induction ms with
  | nil =>
    intro body h fuel tail0 res hp it hit
    cases hit
  | cons it rest ih =>
    intro body h fuel tail0 res hp
    obtain ⟨vb, hmv, hcase⟩ := serItems_shape it rest body h
    have hvb := marshalValue_serializeJ it.value vb hmv
    subst hvb
    cases fuel with
    | zero =>
      rw [parseFieldsAux.eq_def] at hp
      cases hp
    | succ fuel =>
      rcases hcase with ⟨hnil, hbody⟩ | ⟨tail, hsi, hne, hbody⟩
      · subst hnil
        subst hbody
        rw [show (goQuote it.key ++ ':' :: serializeJ (toJ it.value)) ++ '}' :: tail0 =
            '"' :: (it.key.data.flatMap goQuoteChar ++
              '"' :: (':' :: (serializeJ (toJ it.value) ++ '}' :: tail0))) from by
          simp [goQuote, List.cons_append, List.append_assoc, List.singleton_append]] at hp
        rw [parseFieldsAux.eq_def] at hp
        dsimp only at hp
        rw [skipWs_cons_neg '"' _ (by decide)] at hp
        dsimp only at hp
        rw [if_pos rfl] at hp
        cases hps : parseStrChars (it.key.data.flatMap goQuoteChar ++
            '"' :: (':' :: (serializeJ (toJ it.value) ++ '}' :: tail0))) with
        | none =>
          rw [hps] at hp
          cases hp
        | some q =>
          obtain ⟨kout, r2⟩ := q
          rw [hps] at hp
          dsimp only at hp
          obtain ⟨hq, hgood⟩ := parseStrChars_goQuote_inv it.key.data _ (kout, r2) hps
          injection hq with hq1 hq2
          subst hq1
          subst hq2
          rw [skipWs_cons_neg ':' _ (by decide)] at hp
          dsimp only at hp
          rw [if_pos rfl] at hp
          rw [skipWs_serializeJ (toJ it.value) ('}' :: tail0)] at hp
          rw [parseJValue_serialize (toJ it.value) ('}' :: tail0) (by
            intro c cs2 hh
            injection hh with hh1 hh2
            rw [← hh1]
            decide)] at hp
          dsimp only at hp
          rw [skipWs_cons_neg '}' _ (by decide)] at hp
          dsimp only at hp
          rw [if_neg (by decide), if_pos rfl] at hp
          intro x hx
          rcases List.mem_cons.mp hx with h1 | h1
          · subst h1
            exact hgood
          · cases h1
      · subst hbody
        rw [show (goQuote it.key ++ ':' :: serializeJ (toJ it.value) ++ ',' :: tail) ++
              '}' :: tail0 =
            '"' :: (it.key.data.flatMap goQuoteChar ++
              '"' :: (':' :: (serializeJ (toJ it.value) ++
                ',' :: (tail ++ '}' :: tail0)))) from by
          simp [goQuote, List.cons_append, List.append_assoc, List.singleton_append]] at hp
        rw [parseFieldsAux.eq_def] at hp
        dsimp only at hp
        rw [skipWs_cons_neg '"' _ (by decide)] at hp
        dsimp only at hp
        rw [if_pos rfl] at hp
        cases hps : parseStrChars (it.key.data.flatMap goQuoteChar ++
            '"' :: (':' :: (serializeJ (toJ it.value) ++
              ',' :: (tail ++ '}' :: tail0)))) with
        | none =>
          rw [hps] at hp
          cases hp
        | some q =>
          obtain ⟨kout, r2⟩ := q
          rw [hps] at hp
          dsimp only at hp
          obtain ⟨hq, hgood⟩ := parseStrChars_goQuote_inv it.key.data _ (kout, r2) hps
          injection hq with hq1 hq2
          subst hq1
          subst hq2
          rw [skipWs_cons_neg ':' _ (by decide)] at hp
          dsimp only at hp
          rw [if_pos rfl] at hp
          rw [skipWs_serializeJ (toJ it.value) (',' :: (tail ++ '}' :: tail0))] at hp
          rw [parseJValue_serialize (toJ it.value) (',' :: (tail ++ '}' :: tail0)) (by
            intro c cs2 hh
            injection hh with hh1 hh2
            rw [← hh1]
            decide)] at hp
          dsimp only at hp
          rw [skipWs_cons_neg ',' _ (by decide)] at hp
          dsimp only at hp
          rw [if_pos rfl] at hp
          cases hrec : parseFieldsAux fuel (tail ++ '}' :: tail0) with
          | none =>
            rw [hrec] at hp
            cases hp
          | some res2 =>
            have hrest := ih tail hsi fuel tail0 res2 hrec
            intro x hx
            rcases List.mem_cons.mp hx with h1 | h1
            · subst h1
              exact hgood
            · exact hrest x h1

/-- On a rendered body whose keys survive %q quoting, the field scanner
returns the rendered fields in document order, for any sufficient fuel and
any continuation after the closing brace. -/
theorem parseFieldsAux_forward :
    ∀ (ms : MapSlice) (body : List Char), serItems ms = Except.ok body → ms ≠ [] →
      AllKeysGood ms →
      ∀ (fuel : Nat), ms.length ≤ fuel →
      ∀ tail0 : List Char,
        parseFieldsAux fuel (body ++ '}' :: tail0) = some (itemsToFields ms, tail0) := by
  intro ms
  induction ms with
  | nil =>
    intro body h hne
    exact absurd rfl hne
  | cons it rest ih =>
    intro body h hne hgood fuel hfuel tail0
    obtain ⟨vb, hmv, hcase⟩ := serItems_shape it rest body h
    have hvb := marshalValue_serializeJ it.value vb hmv
    subst hvb
    cases fuel with
    | zero => simp at hfuel
    | succ fuel =>
      have hkey : ∀ c ∈ it.key.data, goodQuoteChar c = true :=
        fun c hc => hgood it (List.mem_cons_self _ _) c hc
      rcases hcase with ⟨hnil, hbody⟩ | ⟨tail, hsi, hne2, hbody⟩
      · subst hnil
        subst hbody
        rw [show (goQuote it.key ++ ':' :: serializeJ (toJ it.value)) ++ '}' :: tail0 =
            '"' :: (it.key.data.flatMap goQuoteChar ++
              '"' :: (':' :: (serializeJ (toJ it.value) ++ '}' :: tail0))) from by
          simp [goQuote, List.cons_append, List.append_assoc, List.singleton_append]]
        rw [parseFieldsAux.eq_def]
        dsimp only
        rw [skipWs_cons_neg '"' _ (by decide)]
        dsimp only
        rw [if_pos rfl]
        rw [parseStrChars_goQuote_fwd it.key.data _ hkey]
        dsimp only
        rw [skipWs_cons_neg ':' _ (by decide)]
        dsimp only
        rw [if_pos rfl]
        rw [skipWs_serializeJ (toJ it.value) ('}' :: tail0)]
        rw [parseJValue_serialize (toJ it.value) ('}' :: tail0) (by
          intro c cs2 hh
          injection hh with hh1 hh2
          rw [← hh1]
          decide)]
        dsimp only
        rw [skipWs_cons_neg '}' _ (by decide)]
        dsimp only
        rw [if_neg (by decide), if_pos rfl]
        rfl
      · subst hbody
        rw [show (goQuote it.key ++ ':' :: serializeJ (toJ it.value) ++ ',' :: tail) ++
              '}' :: tail0 =
            '"' :: (it.key.data.flatMap goQuoteChar ++
              '"' :: (':' :: (serializeJ (toJ it.value) ++
                ',' :: (tail ++ '}' :: tail0)))) from by
          simp [goQuote, List.cons_append, List.append_assoc, List.singleton_append]]
        rw [parseFieldsAux.eq_def]
        dsimp only
        rw [skipWs_cons_neg '"' _ (by decide)]
        dsimp only
        rw [if_pos rfl]
        rw [parseStrChars_goQuote_fwd it.key.data _ hkey]
        dsimp only
        rw [skipWs_cons_neg ':' _ (by decide)]
        dsimp only
        rw [if_pos rfl]
        rw [skipWs_serializeJ (toJ it.value) (',' :: (tail ++ '}' :: tail0))]
        rw [parseJValue_serialize (toJ it.value) (',' :: (tail ++ '}' :: tail0)) (by
          intro c cs2 hh
          injection hh with hh1 hh2
          rw [← hh1]
          decide)]
        dsimp only
        rw [skipWs_cons_neg ',' _ (by decide)]
        dsimp only
        rw [if_pos rfl]
        rw [ih tail hsi hne2 (fun x hx c hc => hgood x (List.mem_cons_of_mem _ hx) c hc)
          fuel (by simp only [List.length_cons] at hfuel; omega) tail0]
        rfl

/-- A successful JSONString render parses back (with its trailing newline)
to exactly the rendered field list, in document order. -/
theorem JSONString_parse (ms : MapSlice) (s : String)
    (h : JSONString ms = Except.ok s) :
    parseTopObject s.data = some (itemsToFields ms) := by
  unfold JSONString at h
  cases hmj : MarshalJSON ms with
  | error e =>
    rw [hmj] at h
    cases h
  | ok mbody =>
    rw [hmj] at h
    dsimp only at h
    cases hpt : parseTopObject mbody with
    | none =>
      rw [hpt] at h
      cases h
    | some fs0 =>
      rw [hpt] at h
      dsimp only at h
      injection h with h2
      subst h2
      unfold MarshalJSON at hmj
      cases hsi : serItems ms with
      | error e =>
        rw [hsi] at hmj
        cases hmj
      | ok body =>
        rw [hsi] at hmj
        dsimp only at hmj
        injection hmj with h3
        subst h3
        show parseTopObject (('{' :: body ++ ['}']) ++ ['\n']) = some (itemsToFields ms)
        cases ms with
        | nil =>
          injection hsi with h4
          rw [← h4]
          rfl
        | cons it rest =>
          obtain ⟨vb, hmv, hcase⟩ := serItems_shape it rest body hsi
          have hZex : ∃ Z, body = '"' :: Z := by
            rcases hcase with ⟨_, hbody⟩ | ⟨tail, _, _, hbody⟩
            · exact ⟨(it.key.data.flatMap goQuoteChar ++ ['"']) ++ (':' :: vb),
                by rw [hbody]; simp [goQuote]⟩
            · exact ⟨(it.key.data.flatMap goQuoteChar ++ ['"']) ++
                (':' :: (vb ++ ',' :: tail)), by rw [hbody]; simp [goQuote]⟩
          obtain ⟨Z, hZ⟩ := hZex
          have hgood : AllKeysGood (it :: rest) := by
            rw [show ('{' :: body ++ ['}']) = '{' :: (body ++ '}' :: []) from by
              simp] at hpt
            rw [parseTopObject.eq_def] at hpt
            rw [skipWs_cons_neg '{' _ (by decide)] at hpt
            dsimp only at hpt
            rw [if_pos rfl] at hpt
            rw [show body ++ '}' :: [] = '"' :: (Z ++ '}' :: []) from by
              rw [hZ]; simp] at hpt
            rw [skipWs_cons_neg '"' _ (by decide)] at hpt
            dsimp only at hpt
            rw [if_neg (by decide)] at hpt
            rw [show '"' :: (Z ++ '}' :: []) = body ++ '}' :: [] from by
              rw [hZ]; simp] at hpt
            cases hpf : parseFieldsAux ((body ++ '}' :: []).length + 1)
                (body ++ '}' :: []) with
            | none =>
              rw [hpf] at hpt
              cases hpt
            | some res =>
              exact parseFieldsAux_goodKeys (it :: rest) body hsi _ [] res hpf
          rw [show ('{' :: body ++ ['}']) ++ ['\n'] = '{' :: (body ++ '}' :: ['\n']) from by
            simp]
          rw [parseTopObject.eq_def]
          rw [skipWs_cons_neg '{' _ (by decide)]
          dsimp only
          rw [if_pos rfl]
          rw [show body ++ '}' :: ['\n'] = '"' :: (Z ++ '}' :: ['\n']) from by
            rw [hZ]; simp]
          rw [skipWs_cons_neg '"' _ (by decide)]
          dsimp only
          rw [if_neg (by decide)]
          rw [show '"' :: (Z ++ '}' :: ['\n']) = body ++ '}' :: ['\n'] from by
            rw [hZ]; simp]
          have hlen : (it :: rest).length ≤ (body ++ '}' :: ['\n']).length + 1 := by
            have hsl := serItems_length (it :: rest) body hsi
            simp only [List.length_append, List.length_cons] at hsl ⊢
            omega
          rw [parseFieldsAux_forward (it :: rest) body hsi (by intro hc; cases hc) hgood
            ((body ++ '}' :: ['\n']).length + 1) hlen ['\n']]
          rfl

/-- Membership after a Go-map insert. -/
theorem goMapInsert_mem : ∀ (m : List IdxEntry) (k : String) (v : JValue) (i : Nat)
    (x : IdxEntry), x ∈ goMapInsert m k v i →
    x = { key := k, value := v, idx := i } ∨ x ∈ m := by
  intro m k v i
  induction m with
  | nil =>
    intro x hx
    simp only [goMapInsert] at hx
    exact Or.inl (List.mem_singleton.mp hx)
  | cons p rest ih =>
    intro x hx
    simp only [goMapInsert] at hx
    by_cases hk : p.key = k
    · rw [if_pos hk] at hx
      rcases List.mem_cons.mp hx with h1 | h1
      · exact Or.inl h1
      · exact Or.inr (List.mem_cons_of_mem _ h1)
    · rw [if_neg hk] at hx
      rcases List.mem_cons.mp hx with h1 | h1
      · refine Or.inr ?_
        rw [h1]
        exact List.mem_cons_self _ _
      · rcases ih x h1 with h2 | h2
        · exact Or.inl h2
        · exact Or.inr (List.mem_cons_of_mem _ h2)

/-- Keys in the built intermediate map come from the field list. -/
theorem buildGoMap_keys : ∀ (fields : List (String × JValue)) (c0 : Nat) (x : IdxEntry),
    x ∈ buildGoMap fields c0 → x.key ∈ fields.map Prod.fst := by
  intro fields
  induction fields with
  | nil =>
    intro c0 x hx
    simp only [buildGoMap] at hx
    cases hx
  | cons f rest ih =>
    obtain ⟨k, v⟩ := f
    intro c0 x hx
    simp only [buildGoMap] at hx
    rcases goMapInsert_mem _ _ _ _ x hx with h1 | h1
    · rw [h1]
      simp
    · simp only [List.map_cons]
      exact List.mem_cons_of_mem _ (ih (c0 + 1) x h1)

/-- Inserting a fresh key appends the entry. -/
theorem goMapInsert_fresh : ∀ (m : List IdxEntry) (k : String) (v : JValue) (i : Nat),
    (∀ x ∈ m, x.key ≠ k) →
    goMapInsert m k v i = m ++ [{ key := k, value := v, idx := i }] := by
  intro m k v i
  induction m with
  | nil =>
    intro _
    simp [goMapInsert]
  | cons p rest ih =>
    intro hf
    simp only [goMapInsert]
    rw [if_neg (hf p (List.mem_cons_self _ _))]
    rw [ih (fun x hx => hf x (List.mem_cons_of_mem _ hx))]
    simp [List.cons_append]

/-- With pairwise distinct keys the built map is a permutation of the
document-order indexed entries. -/
theorem buildGoMap_perm : ∀ (fields : List (String × JValue)) (c0 : Nat),
    (fields.map Prod.fst).Nodup →
    (buildGoMap fields c0).Perm (indexedOf fields c0) := by
  intro fields
  induction fields with
  | nil =>
    intro c0 _
    simp only [buildGoMap, indexedOf]
    exact List.Perm.refl []
  | cons f rest ih =>
    obtain ⟨k, v⟩ := f
    intro c0 hnd
    simp only [buildGoMap, indexedOf]
    have hfresh : ∀ x ∈ buildGoMap rest (c0 + 1), x.key ≠ k := by
      intro x hx hkx
      have hmem := buildGoMap_keys rest (c0 + 1) x hx
      rw [hkx] at hmem
      simp only [List.map_cons, List.nodup_cons] at hnd
      exact hnd.1 hmem
    rw [goMapInsert_fresh _ _ _ _ hfresh]
    have hperm := ih (c0 + 1)
      (by simp only [List.map_cons, List.nodup_cons] at hnd; exact hnd.2)
    exact (List.perm_append_singleton _ _).trans (hperm.cons _)

/-- The keys of the indexed entries in document order. -/
theorem indexedOf_key_map : ∀ (fields : List (String × JValue)) (c0 : Nat),
    (indexedOf fields c0).map IdxEntry.key = fields.map Prod.fst := by
  intro fields
  induction fields with
  | nil => intro c0; rfl
  | cons f rest ih =>
    obtain ⟨k, v⟩ := f
    intro c0
    simp only [indexedOf, List.map_cons]
    rw [ih (c0 + 1)]

/-- Indices drawn after c0 stay above c0. -/
theorem indexedOf_idx_bound : ∀ (fields : List (String × JValue)) (c0 : Nat)
    (x : IdxEntry), x ∈ indexedOf fields c0 → c0 < x.idx := by
  intro fields
  induction fields with
  | nil =>
    intro c0 x hx
    simp only [indexedOf] at hx
    cases hx
  | cons f rest ih =>
    obtain ⟨k, v⟩ := f
    intro c0 x hx
    simp only [indexedOf] at hx
    rcases List.mem_cons.mp hx with h1 | h1
    · rw [h1]
      exact Nat.lt_succ_self c0
    · have := ih (c0 + 1) x h1
      omega

/-- The document-order indexed entries are sorted by index. -/
theorem indexedOf_sorted : ∀ (fields : List (String × JValue)) (c0 : Nat),
    (indexedOf fields c0).Sorted (fun a b : IdxEntry => a.idx ≤ b.idx) := by
  intro fields
  induction fields with
  | nil =>
    intro c0
    simp only [indexedOf]
    exact List.sorted_nil
  | cons f rest ih =>
    obtain ⟨k, v⟩ := f
    intro c0
    simp only [indexedOf]
    rw [List.sorted_cons]
    constructor
    · intro b hb
      have := indexedOf_idx_bound rest (c0 + 1) b hb
      exact (by omega : c0 + 1 ≤ b.idx)
    · exact ih (c0 + 1)

/-- The indices in document order form a contiguous range. -/
theorem indexedOf_idx_map : ∀ (fields : List (String × JValue)) (c0 : Nat),
    (indexedOf fields c0).map IdxEntry.idx = List.range' (c0 + 1) fields.length := by
  intro fields
  induction fields with
  | nil => intro c0; rfl
  | cons f rest ih =>
    obtain ⟨k, v⟩ := f
    intro c0
    simp only [indexedOf, List.map_cons, List.length_cons]
    rw [ih (c0 + 1), List.range'_succ]

instance : IsTotal IdxEntry (fun a b : IdxEntry => a.idx ≤ b.idx) :=
  ⟨fun a b => Nat.le_total a.idx b.idx⟩

instance : IsTrans IdxEntry (fun a b : IdxEntry => a.idx ≤ b.idx) :=
  ⟨fun _ _ _ h1 h2 => Nat.le_trans h1 h2⟩

/-- Two sorted lists with pairwise distinct indices that are permutations
of each other are equal. -/
theorem sorted_perm_idx_eq :
    ∀ (a b : List IdxEntry), a.Perm b →
      a.Sorted (fun x y : IdxEntry => x.idx ≤ y.idx) →
      b.Sorted (fun x y : IdxEntry => x.idx ≤ y.idx) →
      (a.map IdxEntry.idx).Nodup → a = b := by
  intro a
  induction a with
  | nil =>
    intro b hp _ _ _
    exact (hp.symm.eq_nil).symm
  | cons x xs ih =>
    intro b hp hsa hsb hnd
    cases b with
    | nil =>
      have := hp.eq_nil
      cases this
    | cons y ys =>
      have hxb : x ∈ y :: ys := hp.subset (List.mem_cons_self _ _)
      have hya : y ∈ x :: xs := hp.symm.subset (List.mem_cons_self _ _)
      rw [List.sorted_cons] at hsa hsb
      have hxy : x.idx ≤ y.idx := by
        rcases List.mem_cons.mp hya with h1 | h1
        · subst h1
          exact Nat.le.refl
        · exact hsa.1 y h1
      have hyx : y.idx ≤ x.idx := by
        rcases List.mem_cons.mp hxb with h1 | h1
        · rw [h1]
        · exact hsb.1 x h1
      have hidx : x.idx = y.idx := Nat.le_antisymm hxy hyx
      have hxeqy : x = y := by
        rcases List.mem_cons.mp hya with h1 | h1
        · exact h1.symm
        · exfalso
          simp only [List.map_cons, List.nodup_cons] at hnd
          refine hnd.1 ?_
          rw [hidx]
          exact List.mem_map_of_mem _ h1
      subst hxeqy
      have hp2 : xs.Perm ys := hp.cons_inv
      rw [ih ys hp2 hsa.2 hsb.2
        (by simp only [List.map_cons, List.nodup_cons] at hnd; exact hnd.2)]

/-- Any extraction order of the intermediate map sorts back to document
order when the keys are pairwise distinct: the index sort repairs the
unordered Go map. -/
theorem sortByIdx_perm_eq (fields : List (String × JValue)) (c0 : Nat)
    (m' : List IdxEntry)
    (hnd : (fields.map Prod.fst).Nodup)
    (hperm : m'.Perm (buildGoMap fields c0)) :
    sortByIdx m' = indexedOf fields c0 := by
  have hchain : (sortByIdx m').Perm (indexedOf fields c0) :=
    (List.perm_insertionSort _ m').trans (hperm.trans (buildGoMap_perm fields c0 hnd))
  refine sorted_perm_idx_eq (sortByIdx m') (indexedOf fields c0) hchain
    (List.sorted_insertionSort _ m') (indexedOf_sorted fields c0) ?_
  have hmp : ((sortByIdx m').map IdxEntry.idx).Perm
      ((indexedOf fields c0).map IdxEntry.idx) := hchain.map _
  refine hmp.nodup_iff.mpr ?_
  rw [indexedOf_idx_map]
  exact List.nodup_range' (c0 + 1) fields.length

/-- The first components of the serialized field list are the keys. -/
theorem itemsToFields_fst (ms : MapSlice) :
    (itemsToFields ms).map Prod.fst = ms.map MapItem.key := by
  unfold itemsToFields
  rw [List.map_map]
  rfl

/-- Unmarshalling a successful render, from any counter start: the result
is defined and lists the entries in document order. -/
theorem unmarshal_render_keys (ms : MapSlice) (s : String)
    (hnd : (ms.map MapItem.key).Nodup)
    (h : JSONString ms = Except.ok s) (c0 : Nat) :
    unmarshalMapSliceFrom s.data c0 =
      some ((indexedOf (itemsToFields ms) c0).map
        (fun e => { key := e.key, value := jToGo e.value })) := by
  unfold unmarshalMapSliceFrom
  rw [JSONString_parse ms s h]
  dsimp only [Option.map]
  rw [sortByIdx_perm_eq (itemsToFields ms) c0 (buildGoMap (itemsToFields ms) c0)
    (by rw [itemsToFields_fst]; exact hnd) (List.Perm.refl _)]

/-- C6: for any keyval sequence whose encoded keys are pairwise distinct,
parsing the JSON that JSONString/MarshalJSON produced for
FromKeyvals(pairs) succeeds and yields entries whose key order equals the
key order of FromKeyvals(pairs), whatever the starting value of the
per-process index counter; moreover the counter indices recorded at parse
time repair any extraction order of the unordered intermediate map: every
permutation of the built map sorts back to the document-order entries. -/
theorem C6_round_trip_order :
    ∀ (pairs : List GoValue) (s : String),
      ((FromKeyvals pairs).map MapItem.key).Nodup →
      JSONString (FromKeyvals pairs) = Except.ok s →
      (∀ c0, ∃ msu, unmarshalMapSliceFrom s.data c0 = some msu ∧
          msu.map MapItem.key = (FromKeyvals pairs).map MapItem.key)
      ∧ (∀ c0 m', m'.Perm (buildGoMap (itemsToFields (FromKeyvals pairs)) c0) →
          sortByIdx m' = indexedOf (itemsToFields (FromKeyvals pairs)) c0) := by
  intro pairs s hnd h
  constructor
  · intro c0
    refine ⟨_, unmarshal_render_keys (FromKeyvals pairs) s hnd h c0, ?_⟩
    rw [List.map_map]
    exact (indexedOf_key_map (itemsToFields (FromKeyvals pairs)) c0).trans
      (itemsToFields_fst (FromKeyvals pairs))
  · intro c0 m' hp
    exact sortByIdx_perm_eq (itemsToFields (FromKeyvals pairs)) c0 m'
      (by rw [itemsToFields_fst]; exact hnd) hp

/-- The keyvals of the C6 witness. -/
def c6Pairs : List GoValue :=
  [GoValue.str "b", GoValue.pbool true, GoValue.str "a", GoValue.pbool false]

/-- The rendered line of the C6 witness. -/
def c6Str : String := "\x7b\"b\":\"true\",\"a\":\"false\"\x7d\n"

/-- Witness for C6: the concrete two-field map renders to its JSON string
and unmarshalling it (counter started at five) restores the key order. -/
theorem C6_round_trip_order_witness :
    ((FromKeyvals c6Pairs).map MapItem.key).Nodup
    ∧ JSONString (FromKeyvals c6Pairs) = Except.ok c6Str
    ∧ (∃ msu, unmarshalMapSliceFrom c6Str.data 5 = some msu ∧
        msu.map MapItem.key = (FromKeyvals c6Pairs).map MapItem.key) :=
  ⟨by decide, rfl,
   (C6_round_trip_order c6Pairs c6Str (by decide) rfl).1 5⟩
